import Mathlib

/-!
Shallow embedding of the C++ `skip_list<T, Compare>` class from
`src/include/skip_list.hpp`, together with a verification of its main
functional properties.

Modelling conventions:

* Heap nodes live in an arena `nodes : List (SLNode T)`; a C++ `Node*` is a
  `Ptr := Option Nat` (`none` is `nullptr`, `some i` is a pointer to the node
  at arena index `i`).  `new Node(...)` appends at the end of the arena;
  `delete` of a single node keeps its (now unreachable) slot so that the
  identity of all other pointers is preserved, which is exactly what the C++
  heap does.
* The sentinel head (`head_`) is not an arena node: its forward array is the
  field `headF` and `headPresent` records whether `head_` is non-null
  (after being moved from, `head_` is `nullptr`).
* The comparator `cmp_` and the element inequality `operator!=` are passed
  to each operation as boolean functions `cmp` / `bne`, mirroring the
  stateless functors used by the C++ code.
* `random_level()` draws coin flips from the Mersenne twister; the model
  takes the drawn level as an explicit argument (`random_level` below maps a
  stream of coin outcomes to the level the C++ code would produce, and every
  level it can produce is at most `MAX_LEVEL`).
* The unbounded `while` walks of the C++ search loops are modelled with
  explicit fuel `s.nodes.length + 1`, which is enough for every acyclic
  chain inside the arena; operations whose C++ version dereferences a null
  `head_` (undefined behaviour after move) return `none`.
* Reads of `forward[i]` beyond a vector's length (impossible for well-formed
  lists, undefined behaviour in C++) are totalised to `nullptr`, and the
  corresponding writes to no-ops.
-/

/-- Pointer into the node arena: `none` is `nullptr`. -/
abbrev Ptr := Option Nat

/-- Model of `skip_list::Node`: one value plus one forward pointer per level
the node participates in (`forward.length = node level + 1`). -/
structure SLNode (T : Type) where
  value : T
  forward : List Ptr
  deriving Repr, DecidableEq

instance [Inhabited T] : Inhabited (SLNode T) := ⟨⟨default, []⟩⟩

/-- Model of the `skip_list` object state. -/
structure skip_list (T : Type) where
  nodes : List (SLNode T)
  headF : List Ptr
  headPresent : Bool
  level_ : Nat
  size_ : Nat
  deriving Repr, DecidableEq

/-- Constant `MAX_LEVEL = 16` from the source. -/
def MAX_LEVEL : Nat := 16

/-- Model of `random_level()`: `coins` is the stream of outcomes of
`dist_(gen_) < P`; the level is incremented while the coin is true and the
cap `MAX_LEVEL` is not reached. -/
def randomLevelAux : Nat → List Bool → Nat
  | lvl, [] => lvl
  | lvl, c :: rest => if lvl < MAX_LEVEL && c then randomLevelAux (lvl + 1) rest else lvl

/-- Level produced by `random_level()` for a given stream of coin flips. -/
def random_level (coins : List Bool) : Nat := randomLevelAux 0 coins

/-- Reference to a list position during a search: the sentinel head or an
arena node.  This is the type of the C++ cursor `x` and of the entries of
the `update` array. -/
inductive NodeRef where
  | head
  | node (i : Nat)
  deriving Repr, DecidableEq

variable {T : Type}

/-- Arena lookup, totalised with a default node. -/
def getNode [Inhabited T] (s : skip_list T) (i : Nat) : SLNode T :=
  s.nodes.getD i default

/-- Value stored at arena index `i` (`nd->value`). -/
def val [Inhabited T] (s : skip_list T) (i : Nat) : T :=
  (getNode s i).value

/-- Length of the forward array of node `i` (node level + 1). -/
def fLen [Inhabited T] (s : skip_list T) (i : Nat) : Nat :=
  (getNode s i).forward.length

/-- Read `nodes[i]->forward[L]`. -/
def fwdN [Inhabited T] (s : skip_list T) (i L : Nat) : Ptr :=
  (getNode s i).forward.getD L none

/-- Read `head_->forward[L]`. -/
def fwdH (s : skip_list T) (L : Nat) : Ptr :=
  s.headF.getD L none

/-- Read the forward pointer of a search position at a level. -/
def fwdR [Inhabited T] (s : skip_list T) : NodeRef → Nat → Ptr
  | .head, L => fwdH s L
  | .node i, L => fwdN s i L

/-- Write `nodes[i]->forward[L] = p` (no-op when out of range, which never
happens on well-formed states). -/
def setFwdN [Inhabited T] (s : skip_list T) (i L : Nat) (p : Ptr) : skip_list T :=
  { s with nodes := s.nodes.set i { getNode s i with forward := (getNode s i).forward.set L p } }

/-- Write the forward pointer of a search position at a level. -/
def setFwdR [Inhabited T] (s : skip_list T) : NodeRef → Nat → Ptr → skip_list T
  | .head, L, p => { s with headF := s.headF.set L p }
  | .node i, L, p => setFwdN s i L p

/-- Capacity of the forward array behind a reference (used to state when a
write actually lands). -/
def capR [Inhabited T] (s : skip_list T) : NodeRef → Nat
  | .head => s.headF.length
  | .node i => if i < s.nodes.length then fLen s i else 0

/-- Inner `while` loop of every search routine:
`while (x->forward[i] && go(x->forward[i]->value)) x = x->forward[i];`
with explicit fuel. -/
def walk [Inhabited T] (go : T → Bool) (s : skip_list T) (L : Nat) : NodeRef → Nat → NodeRef
  | x, 0 => x
  | x, fuel + 1 =>
    match fwdR s x L with
    | none => x
    | some j => if go (val s j) then walk go s L (.node j) fuel else x

/-- Fuel sufficient for any walk over an acyclic chain in the arena. -/
def walkFuel (s : skip_list T) : Nat := s.nodes.length + 1

/-- Level-descent loop of the search primitive
(`for (int i = level_; i >= 0; --i) { while ...; update[i] = x; }`).
Returns the final cursor (`update[0]`) and the list `upd` with
`upd.getD i .head = update[i]` for `i` up to the starting level; for higher
`i` the default `.head` agrees with the `update[i] = head_` assignments
performed by `insert` when the new level exceeds `level_`. -/
def descend [Inhabited T] (go : T → Bool) (s : skip_list T) : Nat → NodeRef → NodeRef × List NodeRef
  | 0, x =>
    let x0 := walk go s 0 x (walkFuel s)
    (x0, [x0])
  | L + 1, x =>
    let xL := walk go s (L + 1) x (walkFuel s)
    let r := descend go s L xL
    (r.1, r.2 ++ [xL])

/-- Walk predicate of `find` / `insert` / `erase` / `lower_bound`:
continue while `cmp_(next->value, value)`. -/
def goLT (cmp : T → T → Bool) (v : T) : T → Bool := fun w => cmp w v

/-- Walk predicate of `upper_bound`: continue while `!cmp_(key, next->value)`. -/
def goLE (cmp : T → T → Bool) (k : T) : T → Bool := fun w => !cmp k w

/-- Default-constructed `skip_list`: fresh head with `MAX_LEVEL+1` null
links, `level_ = 0`, `size_ = 0`. -/
def emptySL (T : Type) : skip_list T :=
  { nodes := [], headF := List.replicate (MAX_LEVEL + 1) none,
    headPresent := true, level_ := 0, size_ := 0 }

/-- Splice step `i` of `insert`:
`newNode->forward[i] = update[i]->forward[i]; update[i]->forward[i] = newNode;`. -/
def spliceStep [Inhabited T] (upd : List NodeRef) (n : Nat) (st : skip_list T) (i : Nat) :
    skip_list T :=
  let pred := upd.getD i .head
  let nxt := fwdR st pred i
  setFwdR (setFwdN st n i nxt) pred i (some n)

/-- Second half of `insert` after the key was found absent: allocate the new
node, raise `level_` if needed, splice at levels `0..lvl`, bump the size. -/
def insertNew [Inhabited T] (s : skip_list T) (v : T) (lvl : Nat) (upd : List NodeRef) :
    skip_list T × Ptr × Bool :=
  let n := s.nodes.length
  let s1 : skip_list T :=
    { s with nodes := s.nodes ++ [⟨v, List.replicate (lvl + 1) none⟩],
             level_ := max s.level_ lvl }
  let s2 := (List.range (lvl + 1)).foldl (spliceStep upd n) s1
  ({ s2 with size_ := s2.size_ + 1 }, some n, true)

/-- Model of `insert(value)`, with the level drawn by `random_level()` passed
as `lvl`.  Returns `none` exactly when the C++ code would dereference a null
`head_` (use after move). -/
def insert [Inhabited T] (cmp : T → T → Bool) (s : skip_list T) (v : T) (lvl : Nat) :
    Option (skip_list T × Ptr × Bool) :=
  if s.headPresent then
    let r := descend (goLT cmp v) s s.level_ .head
    match fwdR s r.1 0 with
    | some j =>
      if !cmp v (val s j) && !cmp (val s j) v then some (s, some j, false)
      else some (insertNew s v lvl r.2)
    | none => some (insertNew s v lvl r.2)
  else none

/-- Rewiring loop of `erase`:
`for (int i = 0; i <= level_; ++i) { if (update[i]->forward[i] != x) break;
update[i]->forward[i] = x->forward[i]; }` (the second argument is the
remaining iteration count `level_ + 1 - i`). -/
def rewireLoop [Inhabited T] (upd : List NodeRef) (j : Nat) :
    Nat → Nat → skip_list T → skip_list T
  | _, 0, st => st
  | i, k + 1, st =>
    let pred := upd.getD i .head
    if fwdR st pred i = some j then
      rewireLoop upd j (i + 1) k (setFwdR st pred i (fwdN st j i))
    else st

/-- Level-shrinking loop of `erase`:
`while (level_ > 0 && head_->forward[level_] == nullptr) --level_;`. -/
def shrinkLevel (s : skip_list T) : Nat → Nat
  | 0 => 0
  | L + 1 => if fwdH s (L + 1) = none then shrinkLevel s L else L + 1

/-- Model of `erase(value)`.  Returns `none` exactly when the C++ code would
dereference a null `head_`. -/
def erase [Inhabited T] (cmp : T → T → Bool) (s : skip_list T) (v : T) :
    Option (skip_list T × Nat) :=
  if s.headPresent then
    let r := descend (goLT cmp v) s s.level_ .head
    match fwdR s r.1 0 with
    | none => some (s, 0)
    | some j =>
      if cmp v (val s j) || cmp (val s j) v then some (s, 0)
      else
        let s1 := rewireLoop r.2 j 0 (s.level_ + 1) s
        let s2 := { s1 with level_ := shrinkLevel s1 s1.level_ }
        some ({ s2 with size_ := s2.size_ - 1 }, 1)
  else none

/-- Model of `find(value)`: `some none` is the end iterator, `some (some j)`
an iterator to node `j`, outer `none` a null-`head_` dereference. -/
def find [Inhabited T] (cmp : T → T → Bool) (s : skip_list T) (v : T) : Option Ptr :=
  if s.headPresent then
    let r := descend (goLT cmp v) s s.level_ .head
    match fwdR s r.1 0 with
    | some j => if !cmp v (val s j) && !cmp (val s j) v then some (some j) else some none
    | none => some none
  else none

/-- Model of `lower_bound(key)`. -/
def lower_bound [Inhabited T] (cmp : T → T → Bool) (s : skip_list T) (k : T) : Option Ptr :=
  if s.headPresent then
    let r := descend (goLT cmp k) s s.level_ .head
    some (fwdR s r.1 0)
  else none

/-- Model of `upper_bound(key)`. -/
def upper_bound [Inhabited T] (cmp : T → T → Bool) (s : skip_list T) (k : T) : Option Ptr :=
  if s.headPresent then
    let r := descend (goLE cmp k) s s.level_ .head
    some (fwdR s r.1 0)
  else none

/-- Model of `count(key)` (`find(key) != end() ? 1 : 0`). -/
def count [Inhabited T] (cmp : T → T → Bool) (s : skip_list T) (k : T) : Option Nat :=
  (find cmp s k).map (fun p => match p with | some _ => 1 | none => 0)

/-- Model of `contains(key)` (`count(key) != 0`). -/
def contains [Inhabited T] (cmp : T → T → Bool) (s : skip_list T) (k : T) : Option Bool :=
  (count cmp s k).map (fun c => c ≠ 0)

/-- Model of `clear()`: guarded by `if (!head_) return;`, frees all chain
nodes, nulls every head link, resets `level_` and `size_`. -/
def clear (s : skip_list T) : skip_list T :=
  if s.headPresent then
    { s with nodes := [], headF := List.replicate (MAX_LEVEL + 1) none, level_ := 0, size_ := 0 }
  else s

/-- Model of `empty()`. -/
def emptyB (s : skip_list T) : Bool := s.size_ == 0

/-- Model of `size()`. -/
def sizeOp (s : skip_list T) : Nat := s.size_

/-- State of the source object after move construction / move assignment:
`head_ = nullptr`, `size_ = 0`, `level_` untouched. -/
def movedFrom (s : skip_list T) : skip_list T :=
  { nodes := [], headF := [], headPresent := false, level_ := s.level_, size_ := 0 }

/-- Model of the destructor body `if (head_) { clear(); delete head_; }`:
total because of the null guard. -/
def destruct (s : skip_list T) : skip_list T :=
  if s.headPresent then { clear s with headPresent := false, headF := [] } else s

/-- Model of `operator++`: `if (ptr_) ptr_ = ptr_->forward[0];` — a silent
no-op on the end / default iterator. -/
def incIter [Inhabited T] (s : skip_list T) (p : Ptr) : Ptr :=
  match p with
  | none => none
  | some i => fwdN s i 0

/-- Model of `operator*`: `if (!ptr_) throw std::out_of_range(...)`;
`none` is the thrown exception. -/
def derefIter [Inhabited T] (s : skip_list T) (p : Ptr) : Option T :=
  match p with
  | none => none
  | some i => some (val s i)

/-- Model of `begin()` (`iterator(head_->forward[0])`, which dereferences
`head_`). -/
def beginIt (s : skip_list T) : Option Ptr :=
  if s.headPresent then some (fwdH s 0) else none

/-- The end / default-constructed iterator (`nullptr`). -/
def endIt : Ptr := none

/-- Level-0 chain of arena indices starting at pointer `p`, with fuel. -/
def chainIdx [Inhabited T] (s : skip_list T) : Nat → Ptr → List Nat
  | 0, _ => []
  | _ + 1, none => []
  | fuel + 1, some i => i :: chainIdx s fuel (fwdN s i 0)

/-- Arena indices visited by an in-order traversal (`begin()` to `end()`). -/
def toListIdx [Inhabited T] (s : skip_list T) : List Nat :=
  chainIdx s s.nodes.length (fwdH s 0)

/-- Values yielded by an in-order traversal. -/
def toList [Inhabited T] (s : skip_list T) : List T :=
  (toListIdx s).map (val s)

/-- Loop of `operator==`: walk both iterators while `it1 != end()`, failing
(`none`) where C++ would throw on `*it2`. -/
def eqLoop [Inhabited T] (bne : T → T → Bool) (s rhs : skip_list T) :
    Nat → Ptr → Ptr → Option Bool
  | _, none, _ => some true
  | 0, some _, _ => none
  | fuel + 1, some i, q =>
    match q with
    | none => none
    | some j =>
      if bne (val s i) (val rhs j) then some false
      else eqLoop bne s rhs fuel (fwdN s i 0) (fwdN rhs j 0)

/-- Model of `operator==`: size check first, then the element walk (which
dereferences both heads). -/
def eqOp [Inhabited T] (bne : T → T → Bool) (s rhs : skip_list T) : Option Bool :=
  if s.size_ ≠ rhs.size_ then some false
  else if s.headPresent && rhs.headPresent then
    eqLoop bne s rhs (s.nodes.length + 1) (fwdH s 0) (fwdH rhs 0)
  else none

/-- Fold of `insert` over a list of (value, drawn level) pairs; used to model
the initializer-list / iterator-range / copy constructors, which all insert
element by element. -/
def insertAll [Inhabited T] (cmp : T → T → Bool) (s : skip_list T) :
    List (T × Nat) → skip_list T
  | [] => s
  | p :: rest =>
    match insert cmp s p.1 p.2 with
    | some r => insertAll cmp r.1 rest
    | none => insertAll cmp s rest

/-- Model of the copy constructor / copy assignment: a fresh empty structure
filled by reinserting the source's in-order sequence (`for (auto v : other)
insert(v);`), with independently drawn levels `lvls`.  Iterating `other`
dereferences its head, hence the guard. -/
def copySL [Inhabited T] (cmp : T → T → Bool) (s : skip_list T) (lvls : List Nat) :
    Option (skip_list T) :=
  if s.headPresent then some (insertAll cmp (emptySL T) ((toList s).zip lvls)) else none

/-- Specification-side definition (used only to compare against the code):
insert `v` into a Compare-sorted duplicate-free list, keeping the existing
element when an equivalent one is already present. -/
def insertSortedSpec (cmp : T → T → Bool) (v : T) : List T → List T
  | [] => [v]
  | x :: xs =>
    if cmp x v then x :: insertSortedSpec cmp v xs
    else if cmp v x then v :: x :: xs
    else x :: xs

/-- Specification-side definition: the sorted, deduplicated (first occurrence
wins) form of a sequence of inserted values. -/
def sortedDedup (cmp : T → T → Bool) (l : List T) : List T :=
  l.foldl (fun acc v => insertSortedSpec cmp v acc) []

/-- Strict-weak-order assumptions the spec places on `Compare`. -/
structure IsSWO (cmp : T → T → Bool) : Prop where
  irrefl : ∀ x, cmp x x = false
  lt_trans : ∀ x y z, cmp x y = true → cmp y z = true → cmp x z = true
  incomp_trans : ∀ x y z, cmp x y = false → cmp y x = false →
    cmp y z = false → cmp z y = false → cmp x z = false ∧ cmp z x = false

/-- Compare-equivalence: neither value is strictly less than the other. -/
def equivC (cmp : T → T → Bool) (a b : T) : Prop :=
  cmp a b = false ∧ cmp b a = false

/-- Boolean chain predicate: starting at pointer `p`, the level-`L` links
run exactly through the arena indices `l` and then reach `q`. -/
def chainSeg [Inhabited T] (s : skip_list T) (L : Nat) : Ptr → List Nat → Ptr → Bool
  | p, [], q => p == q
  | p, i :: rest, q => p == some i && chainSeg s L (fwdN s i L) rest q

/-- Sub-chain of `c` made of the nodes participating in level `L`. -/
def levelChain [Inhabited T] (s : skip_list T) (L : Nat) (c : List Nat) : List Nat :=
  c.filter (fun i => decide (L < fLen s i))

/-- Well-formedness of a `skip_list` state whose level-0 chain is `c`:
this is the data-structure invariant of §3 of the spec, phrased against the
model.  All conjuncts are decidable. -/
def Wf [Inhabited T] (cmp : T → T → Bool) (s : skip_list T) (c : List Nat) : Prop :=
  s.headPresent = true ∧
  s.headF.length = MAX_LEVEL + 1 ∧
  s.level_ ≤ MAX_LEVEL ∧
  s.size_ = c.length ∧
  c.Nodup ∧
  (∀ i ∈ c, i < s.nodes.length ∧ 0 < fLen s i ∧ fLen s i ≤ MAX_LEVEL + 1) ∧
  (∀ L < MAX_LEVEL + 1, chainSeg s L (fwdH s L) (levelChain s L c) none = true) ∧
  List.Pairwise (fun a b => cmp (val s a) (val s b) = true) c ∧
  (∀ L < MAX_LEVEL + 1, s.level_ < L → fwdH s L = none) ∧
  (0 < s.level_ → (fwdH s s.level_).isSome = true)

/-- Tracked-top-level invariant claimed by the spec: `level_` is the highest
level at which a non-head node hangs off the head (0 when there is none). -/
def levelOk (s : skip_list T) : Prop :=
  (∀ L < MAX_LEVEL + 1, s.level_ < L → fwdH s L = none) ∧
  (0 < s.level_ → (fwdH s s.level_).isSome = true)

instance [Inhabited T] (cmp : T → T → Bool) (s : skip_list T) (c : List Nat) :
    Decidable (Wf cmp s c) := by
  unfold Wf; infer_instance

instance (s : skip_list T) : Decidable (levelOk s) := by
  unfold levelOk; infer_instance

instance (cmp : T → T → Bool) (a b : T) : Decidable (equivC cmp a b) := by
  unfold equivC; infer_instance

/-- Position reached after walking a list of indices starting from `x`:
the last index as a node reference, or `x` itself for the empty list. -/
def lastRef (x : NodeRef) (l : List Nat) : NodeRef :=
  match l.getLast? with
  | some a => .node a
  | none => x

/-- The comparator the test-suite instantiates (`std::less<int>`). -/
def natLess : Nat → Nat → Bool := fun a b => decide (a < b)

/-- The element inequality the test-suite instantiates (`operator!=` on int). -/
def natNe : Nat → Nat → Bool := fun a b => decide (a ≠ b)

/-- A concrete two-element state (values 5 and 7, both at level 0) used to
exercise the theorems on specific inputs. -/
def sample2 : skip_list Nat :=
  { nodes := [⟨5, [some 1]⟩, ⟨7, [none]⟩],
    headF := some 0 :: List.replicate MAX_LEVEL none,
    headPresent := true, level_ := 0, size_ := 2 }

/-! ### Basic list access lemmas -/

theorem getD_set_eq {α : Type _} (l : List α) (i : Nat) (a d : α) (h : i < l.length) :
    (l.set i a).getD i d = a := by
  induction l generalizing i with
  | nil => simp at h
  | cons x xs ih =>
    cases i with
    | zero => simp
    | succ n =>
      simp only [List.set_cons_succ, List.getD_cons_succ]
      exact ih n (by simpa using h)

theorem getD_set_ne {α : Type _} (l : List α) {i j : Nat} (a d : α) (h : i ≠ j) :
    (l.set i a).getD j d = l.getD j d := by
  induction l generalizing i j with
  | nil => simp
  | cons x xs ih =>
    cases i with
    | zero =>
      cases j with
      | zero => exact absurd rfl h
      | succ m => simp
    | succ n =>
      cases j with
      | zero => simp
      | succ m =>
        simp only [List.set_cons_succ, List.getD_cons_succ]
        exact ih (fun hh => h (by rw [hh]))

theorem getD_append_left {α : Type _} (l₁ l₂ : List α) (i : Nat) (d : α) (h : i < l₁.length) :
    (l₁ ++ l₂).getD i d = l₁.getD i d := by
  induction l₁ generalizing i with
  | nil => simp at h
  | cons x xs ih =>
    cases i with
    | zero => simp
    | succ n =>
      simp only [List.cons_append, List.getD_cons_succ]
      exact ih n (by simpa using h)

theorem getD_append_right {α : Type _} (l₁ l₂ : List α) (i : Nat) (d : α)
    (h : l₁.length ≤ i) : (l₁ ++ l₂).getD i d = l₂.getD (i - l₁.length) d := by
  induction l₁ generalizing i with
  | nil => simp
  | cons x xs ih =>
    cases i with
    | zero => simp at h
    | succ n =>
      simp only [List.cons_append, List.getD_cons_succ, List.length_cons]
      rw [ih n (by simpa using h)]
      simp [Nat.succ_sub_succ]

/-! ### Frame lemmas for pointer reads and writes -/

theorem setFwdN_nodesLength [Inhabited T] (s : skip_list T) (i L : Nat) (p : Ptr) :
    (setFwdN s i L p).nodes.length = s.nodes.length := by
  simp [setFwdN]

theorem setFwdN_headF [Inhabited T] (s : skip_list T) (i L : Nat) (p : Ptr) :
    (setFwdN s i L p).headF = s.headF := rfl

theorem setFwdN_headPresent [Inhabited T] (s : skip_list T) (i L : Nat) (p : Ptr) :
    (setFwdN s i L p).headPresent = s.headPresent := rfl

theorem setFwdN_level [Inhabited T] (s : skip_list T) (i L : Nat) (p : Ptr) :
    (setFwdN s i L p).level_ = s.level_ := rfl

theorem setFwdN_size [Inhabited T] (s : skip_list T) (i L : Nat) (p : Ptr) :
    (setFwdN s i L p).size_ = s.size_ := rfl

theorem val_setFwdN [Inhabited T] (s : skip_list T) (i L : Nat) (p : Ptr) (j : Nat) :
    val (setFwdN s i L p) j = val s j := by
  unfold val getNode setFwdN
  dsimp only
  by_cases hij : i = j
  · subst hij
    by_cases hi : i < s.nodes.length
    · rw [getD_set_eq _ _ _ _ hi]
      rfl
    · rw [List.set_eq_of_length_le (Nat.le_of_not_lt hi)]
  · rw [getD_set_ne _ _ _ hij]

theorem fLen_setFwdN [Inhabited T] (s : skip_list T) (i L : Nat) (p : Ptr) (j : Nat) :
    fLen (setFwdN s i L p) j = fLen s j := by
  unfold fLen getNode setFwdN
  dsimp only
  by_cases hij : i = j
  · subst hij
    by_cases hi : i < s.nodes.length
    · rw [getD_set_eq _ _ _ _ hi]
      exact List.length_set ..
    · rw [List.set_eq_of_length_le (Nat.le_of_not_lt hi)]
  · rw [getD_set_ne _ _ _ hij]

theorem fwdN_setFwdN_same [Inhabited T] (s : skip_list T) (i L : Nat) (p : Ptr)
    (hi : i < s.nodes.length) (hL : L < fLen s i) :
    fwdN (setFwdN s i L p) i L = p := by
  simp only [fwdN, getNode, setFwdN]
  rw [getD_set_eq _ _ _ _ hi]
  exact getD_set_eq _ _ _ _ hL

theorem fwdN_setFwdN_ne [Inhabited T] (s : skip_list T) (i L : Nat) (p : Ptr) (j M : Nat)
    (h : i ≠ j ∨ L ≠ M) : fwdN (setFwdN s i L p) j M = fwdN s j M := by
  unfold fwdN getNode setFwdN
  dsimp only
  rcases h with h | h
  · rw [getD_set_ne _ _ _ h]
  · by_cases hij : i = j
    · subst hij
      by_cases hi : i < s.nodes.length
      · rw [getD_set_eq _ _ _ _ hi]
        exact getD_set_ne _ _ _ h
      · rw [List.set_eq_of_length_le (Nat.le_of_not_lt hi)]
    · rw [getD_set_ne _ _ _ hij]

theorem setFwdR_nodesLength [Inhabited T] (s : skip_list T) (r : NodeRef) (L : Nat) (p : Ptr) :
    (setFwdR s r L p).nodes.length = s.nodes.length := by
  cases r with
  | head => rfl
  | node i => exact setFwdN_nodesLength s i L p

theorem setFwdR_headFLength [Inhabited T] (s : skip_list T) (r : NodeRef) (L : Nat) (p : Ptr) :
    (setFwdR s r L p).headF.length = s.headF.length := by
  cases r with
  | head => simp [setFwdR]
  | node i => rfl

theorem setFwdR_headPresent [Inhabited T] (s : skip_list T) (r : NodeRef) (L : Nat) (p : Ptr) :
    (setFwdR s r L p).headPresent = s.headPresent := by
  cases r with
  | head => rfl
  | node i => rfl

theorem setFwdR_level [Inhabited T] (s : skip_list T) (r : NodeRef) (L : Nat) (p : Ptr) :
    (setFwdR s r L p).level_ = s.level_ := by
  cases r with
  | head => rfl
  | node i => rfl

theorem setFwdR_size [Inhabited T] (s : skip_list T) (r : NodeRef) (L : Nat) (p : Ptr) :
    (setFwdR s r L p).size_ = s.size_ := by
  cases r with
  | head => rfl
  | node i => rfl

theorem val_setFwdR [Inhabited T] (s : skip_list T) (r : NodeRef) (L : Nat) (p : Ptr) (j : Nat) :
    val (setFwdR s r L p) j = val s j := by
  cases r with
  | head => rfl
  | node i => exact val_setFwdN s i L p j

theorem fLen_setFwdR [Inhabited T] (s : skip_list T) (r : NodeRef) (L : Nat) (p : Ptr) (j : Nat) :
    fLen (setFwdR s r L p) j = fLen s j := by
  cases r with
  | head => rfl
  | node i => exact fLen_setFwdN s i L p j

theorem fwdR_setFwdR_same [Inhabited T] (s : skip_list T) (r : NodeRef) (L : Nat) (p : Ptr)
    (h : L < capR s r) : fwdR (setFwdR s r L p) r L = p := by
  cases r with
  | head =>
    simp only [capR] at h
    simp only [setFwdR, fwdR, fwdH]
    exact getD_set_eq _ _ _ _ h
  | node i =>
    simp only [capR] at h
    by_cases hi : i < s.nodes.length
    · simp only [hi, if_true] at h
      exact fwdN_setFwdN_same s i L p hi h
    · simp [hi] at h

theorem fwdR_setFwdR_ne [Inhabited T] (s : skip_list T) (r : NodeRef) (L : Nat) (p : Ptr)
    (r' : NodeRef) (M : Nat) (h : r ≠ r' ∨ L ≠ M) :
    fwdR (setFwdR s r L p) r' M = fwdR s r' M := by
  cases r with
  | head =>
    cases r' with
    | head =>
      have hLM : L ≠ M := by
        rcases h with h | h
        · exact absurd rfl h
        · exact h
      simp only [setFwdR, fwdR, fwdH]
      exact getD_set_ne _ _ _ hLM
    | node j => rfl
  | node i =>
    cases r' with
    | head => rfl
    | node j =>
      rcases h with h | h
      · exact fwdN_setFwdN_ne s i L p j M (Or.inl (by intro hh; exact h (by rw [hh])))
      · exact fwdN_setFwdN_ne s i L p j M (Or.inr h)

/-! ### Chain segment lemmas -/

theorem chainSeg_nil [Inhabited T] (s : skip_list T) (L : Nat) (p q : Ptr) :
    chainSeg s L p [] q = true ↔ p = q := by
  simp [chainSeg]

theorem chainSeg_cons [Inhabited T] (s : skip_list T) (L : Nat) (p q : Ptr) (i : Nat)
    (l : List Nat) :
    chainSeg s L p (i :: l) q = true ↔ p = some i ∧ chainSeg s L (fwdN s i L) l q = true := by
  simp [chainSeg]

theorem chainSeg_append [Inhabited T] (s : skip_list T) (L : Nat) (p q : Ptr)
    (l₁ l₂ : List Nat) :
    chainSeg s L p (l₁ ++ l₂) q = true ↔
      ∃ m, chainSeg s L p l₁ m = true ∧ chainSeg s L m l₂ q = true := by
  induction l₁ generalizing p with
  | nil =>
    simp only [List.nil_append]
    constructor
    · intro h; exact ⟨p, by simp [chainSeg], h⟩
    · rintro ⟨m, hm, h⟩
      rw [chainSeg_nil] at hm
      rwa [hm]
  | cons i rest ih =>
    simp only [List.cons_append, chainSeg_cons]
    constructor
    · rintro ⟨hp, h⟩
      rcases (ih _).1 h with ⟨m, h1, h2⟩
      exact ⟨m, ⟨hp, h1⟩, h2⟩
    · rintro ⟨m, ⟨hp, h1⟩, h2⟩
      exact ⟨hp, (ih _).2 ⟨m, h1, h2⟩⟩

theorem chainSeg_congr [Inhabited T] (s s' : skip_list T) (L : Nat) (q : Ptr) (l : List Nat) :
    ∀ p : Ptr, (∀ i ∈ l, fwdN s' i L = fwdN s i L) → chainSeg s L p l q = true →
      chainSeg s' L p l q = true := by
  induction l with
  | nil => intro p _ h; rwa [chainSeg_nil] at h ⊢
  | cons i rest ih =>
    intro p hfwd h
    rw [chainSeg_cons] at h
    rw [chainSeg_cons, hfwd i (List.mem_cons_self ..)]
    exact ⟨h.1, ih _ (fun j hj => hfwd j (List.mem_cons_of_mem _ hj)) h.2⟩

theorem lastRef_cons (x : NodeRef) (i : Nat) (l : List Nat) :
    lastRef x (i :: l) = lastRef (.node i) l := by
  cases l with
  | nil => simp [lastRef]
  | cons j rest =>
    cases hgl : (j :: rest).getLast? with
    | none => simp at hgl
    | some a => simp [lastRef, List.getLast?_cons_cons, hgl]

theorem lastRef_append_of_ne_nil (x : NodeRef) (l₁ l₂ : List Nat) (h : l₂ ≠ []) :
    lastRef x (l₁ ++ l₂) = lastRef x l₂ := by
  unfold lastRef
  rw [List.getLast?_append_of_ne_nil _ h]

theorem lastRef_append (x : NodeRef) (l₁ l₂ : List Nat) :
    lastRef x (l₁ ++ l₂) = lastRef (lastRef x l₁) l₂ := by
  cases l₂ with
  | nil => simp [lastRef]
  | cons j rest => rw [lastRef_append_of_ne_nil x l₁ _ (by simp)]; rfl

theorem chainSeg_fwdR_lastRef [Inhabited T] (s : skip_list T) (L : Nat) (x : NodeRef)
    (l : List Nat) (q : Ptr) (h : chainSeg s L (fwdR s x L) l q = true) :
    fwdR s (lastRef x l) L = q := by
  induction l generalizing x with
  | nil => rw [chainSeg_nil] at h; simpa [lastRef] using h
  | cons i rest ih =>
    rw [chainSeg_cons] at h
    rw [lastRef_cons]
    exact ih (.node i) h.2

theorem chainIdx_of_chainSeg [Inhabited T] (s : skip_list T) (p : Ptr) (c : List Nat)
    (fuel : Nat) (h : chainSeg s 0 p c none = true) (hfuel : c.length ≤ fuel) :
    chainIdx s fuel p = c := by
  induction c generalizing p fuel with
  | nil =>
    rw [chainSeg_nil] at h
    subst h
    cases fuel <;> rfl
  | cons i rest ih =>
    rw [chainSeg_cons] at h
    cases fuel with
    | zero => simp at hfuel
    | succ f =>
      rw [h.1]
      simp only [chainIdx]
      rw [ih _ _ h.2 (by simpa using hfuel)]

/-! ### Walk correctness -/

theorem walk_spec [Inhabited T] (go : T → Bool) (s : skip_list T) (L : Nat) :
    ∀ (l : List Nat) (x : NodeRef) (fuel : Nat),
      chainSeg s L (fwdR s x L) l none = true → l.length ≤ fuel →
      walk go s L x fuel = lastRef x (l.takeWhile (fun i => go (val s i))) ∧
      chainSeg s L (fwdR s (walk go s L x fuel) L)
        (l.dropWhile (fun i => go (val s i))) none = true := by
  intro l
  induction l with
  | nil =>
    intro x fuel h _
    rw [chainSeg_nil] at h
    have hw : walk go s L x fuel = x := by
      cases fuel with
      | zero => rfl
      | succ f => simp [walk, h]
    rw [hw]
    exact ⟨by simp [lastRef], by simpa [chainSeg_nil] using h⟩
  | cons i rest ih =>
    intro x fuel h hfuel
    rw [chainSeg_cons] at h
    cases fuel with
    | zero => simp at hfuel
    | succ f =>
      by_cases hgoi : go (val s i) = true
      · have hw : walk go s L x (f + 1) = walk go s L (.node i) f := by
          simp [walk, h.1, hgoi]
        have hseg : chainSeg s L (fwdR s (NodeRef.node i) L) rest none = true := h.2
        rcases ih (.node i) f hseg (by simpa using hfuel) with ⟨h1, h2⟩
        rw [hw]
        simp only [List.takeWhile_cons, List.dropWhile_cons, hgoi, if_true]
        rw [lastRef_cons]
        exact ⟨h1, h2⟩
      · have hgoi' : go (val s i) = false := by simpa using hgoi
        have hw : walk go s L x (f + 1) = x := by
          simp [walk, h.1, hgoi']
        rw [hw]
        simp only [List.takeWhile_cons, List.dropWhile_cons, hgoi', if_false,
          Bool.false_eq_true]
        refine ⟨by simp [lastRef], ?_⟩
        rw [chainSeg_cons]
        exact ⟨h.1, h.2⟩

/-! ### Sortedness, takeWhile and dropWhile -/

theorem takeWhile_eq_filter_of_sorted [Inhabited T] (cmp : T → T → Bool) (s : skip_list T)
    (go : T → Bool) (hgo : ∀ a b, go a = false → cmp a b = true → go b = false) :
    ∀ l : List Nat, List.Pairwise (fun a b => cmp (val s a) (val s b) = true) l →
      l.takeWhile (fun i => go (val s i)) = l.filter (fun i => go (val s i)) ∧
      l.dropWhile (fun i => go (val s i)) = l.filter (fun i => !go (val s i)) := by
  intro l
  induction l with
  | nil => simp
  | cons i rest ih =>
    intro hp
    rcases List.pairwise_cons.1 hp with ⟨hhead, htail⟩
    by_cases hgoi : go (val s i) = true
    · rcases ih htail with ⟨h1, h2⟩
      simp only [List.takeWhile_cons, List.dropWhile_cons, List.filter_cons, hgoi,
        if_true, Bool.not_true, Bool.false_eq_true, if_false]
      exact ⟨by rw [h1], by rw [h2]⟩
    · have hgoi' : go (val s i) = false := by simpa using hgoi
      have hall : ∀ j ∈ rest, go (val s j) = false := fun j hj =>
        hgo _ _ hgoi' (hhead j hj)
      simp only [List.takeWhile_cons, List.dropWhile_cons, List.filter_cons, hgoi',
        Bool.not_false, if_true, Bool.false_eq_true, if_false]
      constructor
      · rw [eq_comm, List.filter_eq_nil_iff]
        intro j hj
        simp [hall j hj]
      · rw [eq_comm]
        congr 1
        rw [List.filter_eq_self]
        intro j hj
        simp [hall j hj]

theorem goStep_goLT (cmp : T → T → Bool) (hso : IsSWO cmp) (v : T) :
    ∀ a b, goLT cmp v a = false → cmp a b = true → goLT cmp v b = false := by
  intro a b ha hab
  unfold goLT at ha ⊢
  cases hb : cmp b v with
  | false => rfl
  | true =>
    have h2 := hso.lt_trans a b v hab hb
    rw [h2] at ha
    simp at ha

theorem goStep_goLE (cmp : T → T → Bool) (hso : IsSWO cmp) (k : T) :
    ∀ a b, goLE cmp k a = false → cmp a b = true → goLE cmp k b = false := by
  intro a b ha hab
  unfold goLE at ha ⊢
  have ha' : cmp k a = true := by
    cases hka : cmp k a with
    | true => rfl
    | false => rw [hka] at ha; simp at ha
  have h2 := hso.lt_trans k a b ha' hab
  simp [h2]

theorem length_le_of_nodup_bounded (c : List Nat) (n : Nat) (hnd : c.Nodup)
    (hb : ∀ i ∈ c, i < n) : c.length ≤ n := by
  classical
  have hsub : c.toFinset ⊆ Finset.range n := by
    intro i hi
    rw [List.mem_toFinset] at hi
    exact Finset.mem_range.2 (hb i hi)
  have hcard := Finset.card_le_card hsub
  rwa [List.toFinset_card_of_nodup hnd, Finset.card_range] at hcard

theorem head_dropWhile_false {α : Type _} (p : α → Bool) :
    ∀ l : List α, ∀ a, (l.dropWhile p).head? = some a → p a = false := by
  intro l
  induction l with
  | nil => intro a h; simp [List.dropWhile] at h
  | cons x xs ih =>
    intro a h
    by_cases hx : p x = true
    · rw [List.dropWhile_cons_of_pos hx] at h
      exact ih a h
    · have hx' : p x = false := by simpa using hx
      rw [List.dropWhile_cons_of_neg (by simp [hx'])] at h
      simp only [List.head?_cons, Option.some.injEq] at h
      rwa [h] at hx'

theorem head_dropWhile_eq_find {α : Type _} (p : α → Bool) :
    ∀ l : List α, (l.dropWhile p).head? = l.find? (fun a => !p a) := by
  intro l
  induction l with
  | nil => simp
  | cons x xs ih =>
    by_cases hx : p x = true
    · rw [List.dropWhile_cons_of_pos hx]
      rw [ih]
      simp [List.find?, hx]
    · have hx' : p x = false := by simpa using hx
      rw [List.dropWhile_cons_of_neg (by simp [hx'])]
      simp [List.find?, hx']

/-! ### Support for the descent -/

theorem takeWhile_append_all {α : Type _} (p : α → Bool) (A B : List α)
    (h : ∀ a ∈ A, p a = true) :
    (A ++ B).takeWhile p = A ++ B.takeWhile p ∧ (A ++ B).dropWhile p = B.dropWhile p := by
  induction A with
  | nil => simp
  | cons a A ih =>
    have ha : p a = true := h a (List.mem_cons_self ..)
    rcases ih (fun b hb => h b (List.mem_cons_of_mem _ hb)) with ⟨h1, h2⟩
    simp only [List.cons_append, List.takeWhile_cons, List.dropWhile_cons, ha, if_true]
    exact ⟨by rw [h1], by rw [h2]⟩

theorem levelChain_zero [Inhabited T] (s : skip_list T) (c : List Nat)
    (h : ∀ i ∈ c, 0 < fLen s i) : levelChain s 0 c = c := by
  unfold levelChain
  rw [List.filter_eq_self]
  intro i hi
  simpa using h i hi

theorem levelChain_length_le [Inhabited T] (s : skip_list T) (c : List Nat) (L : Nat)
    (hnd : c.Nodup) (hb : ∀ i ∈ c, i < s.nodes.length) :
    (levelChain s L c).length ≤ s.nodes.length :=
  Nat.le_trans (List.length_filter_le _ _)
    (length_le_of_nodup_bounded c s.nodes.length hnd hb)

theorem levelChain_mono [Inhabited T] (s : skip_list T) (c : List Nat) (L : Nat) (i : Nat)
    (h : i ∈ levelChain s (L + 1) c) : i ∈ levelChain s L c := by
  unfold levelChain at h ⊢
  rw [List.mem_filter] at h ⊢
  refine ⟨h.1, ?_⟩
  have hLlt := h.2
  simp only [decide_eq_true_eq] at hLlt ⊢
  exact Nat.lt_of_succ_lt hLlt

theorem levelChain_pairwise [Inhabited T] (cmp : T → T → Bool) (s : skip_list T)
    (c : List Nat) (L : Nat)
    (hpw : List.Pairwise (fun a b => cmp (val s a) (val s b) = true) c) :
    List.Pairwise (fun a b => cmp (val s a) (val s b) = true) (levelChain s L c) :=
  hpw.sublist (List.filter_sublist _)

/-! ### Descent correctness -/

theorem descend_spec [Inhabited T] (cmp : T → T → Bool) (s : skip_list T) (c : List Nat)
    (go : T → Bool) (hwf : Wf cmp s c)
    (hgo : ∀ a b, go a = false → cmp a b = true → go b = false) :
    ∀ (L : Nat) (x : NodeRef) (A B : List Nat),
      L < MAX_LEVEL + 1 →
      levelChain s L c = A ++ B →
      (∀ i ∈ A, go (val s i) = true) →
      x = lastRef .head A →
      chainSeg s L (fwdR s x L) B none = true →
      (descend go s L x).1 =
        lastRef .head ((levelChain s 0 c).takeWhile (fun i => go (val s i))) ∧
      chainSeg s 0 (fwdR s (descend go s L x).1 0)
        ((levelChain s 0 c).dropWhile (fun i => go (val s i))) none = true ∧
      (descend go s L x).2.length = L + 1 ∧
      (∀ j, j ≤ L →
        (descend go s L x).2.getD j .head =
          lastRef .head ((levelChain s j c).takeWhile (fun i => go (val s i))) ∧
        chainSeg s j (fwdR s ((descend go s L x).2.getD j .head) j)
          ((levelChain s j c).dropWhile (fun i => go (val s i))) none = true) := by
  obtain ⟨hhp, hhl, hlev, hsz, hnd, hnode, hch, hpw, habove, htop⟩ := hwf
  have hbounds : ∀ i ∈ c, i < s.nodes.length := fun i hi => (hnode i hi).1
  intro L
  induction L with
  | zero =>
    intro x A B _ hsplit hA hx hseg
    have hfuel : B.length ≤ walkFuel s := by
      have h1 : B.length ≤ (levelChain s 0 c).length := by
        rw [hsplit]; simp
      have h2 := levelChain_length_le s c 0 hnd hbounds
      unfold walkFuel
      exact Nat.le_succ_of_le (Nat.le_trans h1 h2)
    rcases walk_spec go s 0 B x (walkFuel s) hseg hfuel with ⟨hw1, hw2⟩
    rcases takeWhile_append_all (fun i => go (val s i)) A B hA with ⟨ht, hd⟩
    rw [hsplit]
    have hres : (descend go s 0 x).1 = walk go s 0 x (walkFuel s) := rfl
    have hlast : walk go s 0 x (walkFuel s) =
        lastRef .head ((A ++ B).takeWhile (fun i => go (val s i))) := by
      rw [hw1, ht, lastRef_append, ← hx]
    refine ⟨by rw [hres, hlast], ?_, rfl, ?_⟩
    · rw [hres, hw1, hd, ← hw1]
      exact hw2
    · intro j hj
      interval_cases j
      rw [hsplit]
      have hupd : (descend go s 0 x).2.getD 0 .head = walk go s 0 x (walkFuel s) := rfl
      refine ⟨by rw [hupd, hlast], ?_⟩
      rw [hupd, hd]
      exact hw2
  | succ L ihL =>
    intro x A B hL17 hsplit hA hx hseg
    have hfuel : B.length ≤ walkFuel s := by
      have h1 : B.length ≤ (levelChain s (L + 1) c).length := by
        rw [hsplit]; simp
      have h2 := levelChain_length_le s c (L + 1) hnd hbounds
      unfold walkFuel
      exact Nat.le_succ_of_le (Nat.le_trans h1 h2)
    rcases walk_spec go s (L + 1) B x (walkFuel s) hseg hfuel with ⟨hw1, hw2⟩
    rcases takeWhile_append_all (fun i => go (val s i)) A B hA with ⟨ht, hd⟩
    -- the cursor after walking level L+1
    set xL := walk go s (L + 1) x (walkFuel s) with hxL
    have hxLlast : xL = lastRef .head
        ((levelChain s (L + 1) c).takeWhile (fun i => go (val s i))) := by
      rw [hw1, hsplit, ht, lastRef_append, ← hx]
    have hxLseg : chainSeg s (L + 1) (fwdR s xL (L + 1))
        ((levelChain s (L + 1) c).dropWhile (fun i => go (val s i))) none = true := by
      rw [hsplit, hd]
      exact hw2
    -- entry facts for level L
    have hPgo : ∀ i ∈ (levelChain s (L + 1) c).takeWhile (fun i => go (val s i)),
        go (val s i) = true := by
      intro i hi
      have h' := List.mem_takeWhile_imp hi
      simpa using h'
    have hentry : ∃ A' B', levelChain s L c = A' ++ B' ∧
        (∀ i ∈ A', go (val s i) = true) ∧ xL = lastRef .head A' ∧
        chainSeg s L (fwdR s xL L) B' none = true := by
      rcases hP : (levelChain s (L + 1) c).takeWhile (fun i => go (val s i)) with _ | ⟨p0, Prest⟩
      · -- nothing was passed at level L+1: the cursor is still head
        have hxLhead : xL = NodeRef.head := by rw [hxLlast, hP]; simp [lastRef]
        refine ⟨[], levelChain s L c, by simp, by simp, ?_, ?_⟩
        · rw [hxLhead]; simp [lastRef]
        · rw [hxLhead]
          exact hch L (Nat.lt_of_succ_lt hL17)
      · -- the cursor is the last passed node e, a member of the level-L chain
        set P := (levelChain s (L + 1) c).takeWhile (fun i => go (val s i)) with hPdef
        have hPne : P ≠ [] := by rw [hP]; simp
        set e := P.getLast hPne with he
        have heP : e ∈ P := List.getLast_mem hPne
        have hePgo : go (val s e) = true := hPgo e heP
        have heLp1 : e ∈ levelChain s (L + 1) c := List.takeWhile_subset _ heP
        have heL : e ∈ levelChain s L c := levelChain_mono s c L e heLp1
        rcases List.append_of_mem heL with ⟨A'', B'', hsplitL⟩
        have hpwL := levelChain_pairwise cmp s c L hpw
        have hApairs : ∀ a ∈ A'', cmp (val s a) (val s e) = true := by
          rw [hsplitL] at hpwL
          rcases List.pairwise_append.1 hpwL with ⟨_, _, hcross⟩
          intro a ha
          exact hcross a ha e (List.mem_cons_self ..)
        have hA'go : ∀ i ∈ A'' ++ [e], go (val s i) = true := by
          intro i hi
          rcases List.mem_append.1 hi with hi | hi
          · by_contra hgoa
            have hgoa' : go (val s i) = false := by simpa using hgoa
            have := hgo _ _ hgoa' (hApairs i hi)
            rw [this] at hePgo
            exact Bool.false_ne_true hePgo
          · rw [List.mem_singleton.1 hi]
            exact hePgo
        have hlastP : lastRef .head P = .node e := by
          unfold lastRef
          rw [List.getLast?_eq_getLast P hPne]
        have hlastA : lastRef .head (A'' ++ [e]) = .node e := by
          rw [lastRef_append_of_ne_nil _ _ _ (by simp)]
          simp [lastRef]
        have hxLe : xL = NodeRef.node e := by rw [hxLlast]; exact hlastP
        have hchL : chainSeg s L (fwdH s L) (levelChain s L c) none = true :=
          hch L (Nat.lt_of_succ_lt hL17)
        rw [hsplitL] at hchL
        have hre : A'' ++ e :: B'' = (A'' ++ [e]) ++ B'' := by simp
        rw [hre] at hchL
        rcases (chainSeg_append ..).1 hchL with ⟨m, hm1, hm2⟩
        have hme : fwdR s (NodeRef.node e) L = m := by
          have := chainSeg_fwdR_lastRef s L .head (A'' ++ [e]) m hm1
          rwa [hlastA] at this
        refine ⟨A'' ++ [e], B'', by rw [hsplitL]; simp, hA'go, by rw [hxLe, hlastA], ?_⟩
        rw [hxLe, hme]
        exact hm2
    rcases hentry with ⟨A', B', hsplit', hA', hx', hseg'⟩
    have hIH := ihL xL A' B' (Nat.lt_of_succ_lt hL17) hsplit' hA' hx' hseg'
    rcases hIH with ⟨hI1, hI2, hI3, hI4⟩
    have hd1 : (descend go s (L + 1) x).1 = (descend go s L xL).1 := rfl
    have hd2 : (descend go s (L + 1) x).2 = (descend go s L xL).2 ++ [xL] := rfl
    refine ⟨by rw [hd1]; exact hI1, by rw [hd1]; exact hI2, by rw [hd2]; simp [hI3], ?_⟩
    intro j hj
    rcases Nat.lt_or_ge j (L + 1) with hjlt | hjge
    · have hjle : j ≤ L := Nat.le_of_lt_succ hjlt
      have hgd : (descend go s (L + 1) x).2.getD j .head =
          (descend go s L xL).2.getD j .head := by
        rw [hd2]
        exact getD_append_left _ _ j _ (by rw [hI3]; exact hjlt)
      rw [hgd]
      exact hI4 j hjle
    · have hjeq : j = L + 1 := Nat.le_antisymm hj hjge
      subst hjeq
      have hgd : (descend go s (L + 1) x).2.getD (L + 1) .head = xL := by
        rw [hd2]
        rw [getD_append_right _ _ _ _ (by rw [hI3])]
        rw [hI3]
        simp
      rw [hgd]
      exact ⟨hxLlast, hxLseg⟩

/-! ### Top-level search characterisation -/

theorem chainSeg_none_nil [Inhabited T] (s : skip_list T) (L : Nat) (l : List Nat)
    (h : chainSeg s L none l none = true) : l = [] := by
  cases l with
  | nil => rfl
  | cons i rest =>
    rw [chainSeg_cons] at h
    exact absurd h.1 (by simp)

theorem levelChain_above [Inhabited T] (cmp : T → T → Bool) (s : skip_list T) (c : List Nat)
    (hwf : Wf cmp s c) (L : Nat) (hL : L < MAX_LEVEL + 1) (hlev : s.level_ < L) :
    levelChain s L c = [] := by
  obtain ⟨_, _, _, _, _, _, hch, _, habove, _⟩ := hwf
  have h := hch L hL
  rw [habove L hL hlev] at h
  exact chainSeg_none_nil s L _ h

theorem descend_top [Inhabited T] (cmp : T → T → Bool) (s : skip_list T) (c : List Nat)
    (go : T → Bool) (hwf : Wf cmp s c)
    (hgo : ∀ a b, go a = false → cmp a b = true → go b = false) :
    (descend go s s.level_ .head).1 =
      lastRef .head (c.takeWhile (fun i => go (val s i))) ∧
    chainSeg s 0 (fwdR s (descend go s s.level_ .head).1 0)
      (c.dropWhile (fun i => go (val s i))) none = true ∧
    (descend go s s.level_ .head).2.length = s.level_ + 1 ∧
    (∀ j, j ≤ s.level_ →
      (descend go s s.level_ .head).2.getD j .head =
        lastRef .head ((levelChain s j c).takeWhile (fun i => go (val s i))) ∧
      chainSeg s j (fwdR s ((descend go s s.level_ .head).2.getD j .head) j)
        ((levelChain s j c).dropWhile (fun i => go (val s i))) none = true) := by
  have hwf' := hwf
  obtain ⟨hhp, hhl, hlev, hsz, hnd, hnode, hch, hpw, habove, htop⟩ := hwf'
  have hc0 : levelChain s 0 c = c := levelChain_zero s c (fun i hi => (hnode i hi).2.1)
  have h := descend_spec cmp s c go hwf hgo s.level_ .head []
    (levelChain s s.level_ c) (Nat.lt_succ_of_le hlev) (by simp) (by simp)
    (by simp [lastRef]) (hch s.level_ (Nat.lt_succ_of_le hlev))
  rw [hc0] at h
  exact h

theorem searchPtr_eq [Inhabited T] (cmp : T → T → Bool) (s : skip_list T) (c : List Nat)
    (go : T → Bool) (hwf : Wf cmp s c)
    (hgo : ∀ a b, go a = false → cmp a b = true → go b = false) :
    fwdR s (descend go s s.level_ .head).1 0 =
      (c.dropWhile (fun i => go (val s i))).head? := by
  rcases descend_top cmp s c go hwf hgo with ⟨_, hseg, _, _⟩
  cases hR : c.dropWhile (fun i => go (val s i)) with
  | nil => rw [hR] at hseg; rwa [chainSeg_nil] at hseg
  | cons j rest =>
    rw [hR, chainSeg_cons] at hseg
    rw [hseg.1]
    rfl

theorem toListIdx_eq [Inhabited T] (cmp : T → T → Bool) (s : skip_list T) (c : List Nat)
    (hwf : Wf cmp s c) : toListIdx s = c := by
  obtain ⟨hhp, hhl, hlev, hsz, hnd, hnode, hch, hpw, habove, htop⟩ := hwf
  have hc0 : levelChain s 0 c = c := levelChain_zero s c (fun i hi => (hnode i hi).2.1)
  have h := hch 0 (Nat.succ_pos MAX_LEVEL)
  rw [hc0] at h
  exact chainIdx_of_chainSeg s _ c _ h
    (length_le_of_nodup_bounded c s.nodes.length hnd (fun i hi => (hnode i hi).1))

theorem toList_eq [Inhabited T] (cmp : T → T → Bool) (s : skip_list T) (c : List Nat)
    (hwf : Wf cmp s c) : toList s = c.map (val s) := by
  unfold toList
  rw [toListIdx_eq cmp s c hwf]

/-! ### Locating an equivalent key -/

theorem search_found [Inhabited T] (cmp : T → T → Bool) (s : skip_list T) (c : List Nat)
    (hso : IsSWO cmp) (hwf : Wf cmp s c) (v : T) (w : Nat) (hw : w ∈ c)
    (hequiv : cmp (val s w) v = false ∧ cmp v (val s w) = false) :
    (c.dropWhile (fun i => cmp (val s i) v)).head? = some w := by
  have hwf' := hwf
  obtain ⟨hhp, hhl, hlev, hsz, hnd, hnode, hch, hpw, habove, htop⟩ := hwf'
  have hgo := goStep_goLT cmp hso v
  have hgo' : ∀ a b : T, (fun w => cmp w v) a = false → cmp a b = true →
      (fun w => cmp w v) b = false := hgo
  rcases takeWhile_eq_filter_of_sorted cmp s (fun w => cmp w v) hgo' c hpw with ⟨ht, hd⟩
  have hgoal : c.dropWhile (fun i => cmp (val s i) v) =
      c.filter (fun i => !cmp (val s i) v) := hd
  -- w survives the filter
  have hwmem : w ∈ c.dropWhile (fun i => cmp (val s i) v) := by
    rw [hgoal, List.mem_filter]
    exact ⟨hw, by simp [hequiv.1]⟩
  cases hR : c.dropWhile (fun i => cmp (val s i) v) with
  | nil => rw [hR] at hwmem; simp at hwmem
  | cons j rest =>
    rw [hR] at hwmem
    have hjv : cmp (val s j) v = false := by
      have := head_dropWhile_false (fun i => cmp (val s i) v) c j (by rw [hR]; rfl)
      simpa using this
    -- pairwise facts inside the dropWhile suffix
    have hpwR : List.Pairwise (fun a b => cmp (val s a) (val s b) = true)
        (j :: rest) := by
      rw [← hR]
      exact hpw.sublist (List.dropWhile_sublist _)
    rcases List.mem_cons.1 hwmem with hwj | hwrest
    · simp [hwj]
    · -- j sits before w, so cmp (val j) (val w); contradictions force j = w
      have hjw : cmp (val s j) (val s w) = true :=
        (List.pairwise_cons.1 hpwR).1 w hwrest
      have hvj : cmp v (val s j) = false := by
        cases hvj : cmp v (val s j) with
        | false => rfl
        | true =>
          have := hso.lt_trans v (val s j) (val s w) hvj hjw
          rw [this] at hequiv
          exact absurd hequiv.2 (by simp)
      have := hso.incomp_trans (val s j) v (val s w) hjv hvj hequiv.2 hequiv.1
      rw [this.1] at hjw
      exact absurd hjw (by simp)

theorem search_absent [Inhabited T] (cmp : T → T → Bool) (s : skip_list T) (c : List Nat)
    (hso : IsSWO cmp) (hwf : Wf cmp s c) (v : T)
    (habs : ∀ w ∈ c, ¬(cmp (val s w) v = false ∧ cmp v (val s w) = false)) :
    ∀ j, (c.dropWhile (fun i => cmp (val s i) v)).head? = some j →
      j ∈ c ∧ cmp (val s j) v = false ∧ cmp v (val s j) = true := by
  intro j hj
  have hjmem : j ∈ c := by
    have : j ∈ c.dropWhile (fun i => cmp (val s i) v) := by
      cases hR : c.dropWhile (fun i => cmp (val s i) v) with
      | nil => rw [hR] at hj; simp at hj
      | cons a rest =>
        rw [hR] at hj
        simp only [List.head?_cons, Option.some.injEq] at hj
        rw [hj]
        exact List.mem_cons_self ..
    exact List.dropWhile_sublist _ |>.subset this
  have hjv : cmp (val s j) v = false := by
    have := head_dropWhile_false (fun i => cmp (val s i) v) c j hj
    simpa using this
  have hvj : cmp v (val s j) = true := by
    cases hvj : cmp v (val s j) with
    | true => rfl
    | false => exact absurd ⟨hjv, hvj⟩ (habs j hjmem)
  exact ⟨hjmem, hjv, hvj⟩

/-! ### find, lower_bound, upper_bound -/

theorem find_present [Inhabited T] (cmp : T → T → Bool) (s : skip_list T) (c : List Nat)
    (hso : IsSWO cmp) (hwf : Wf cmp s c) (v : T) (w : Nat) (hw : w ∈ c)
    (hequiv : cmp (val s w) v = false ∧ cmp v (val s w) = false) :
    find cmp s v = some (some w) := by
  have hhp := hwf.1
  have hgo := goStep_goLT cmp hso v
  have hptr := searchPtr_eq cmp s c (goLT cmp v) hwf hgo
  have hhd := search_found cmp s c hso hwf v w hw hequiv
  unfold find
  rw [hhp]
  simp only [if_true]
  have hsc : fwdR s (descend (goLT cmp v) s s.level_ .head).1 0 = some w := by
    rw [hptr]
    simpa [goLT] using hhd
  rw [hsc]
  simp [hequiv.1, hequiv.2]

theorem find_absent [Inhabited T] (cmp : T → T → Bool) (s : skip_list T) (c : List Nat)
    (hso : IsSWO cmp) (hwf : Wf cmp s c) (v : T)
    (habs : ∀ w ∈ c, ¬(cmp (val s w) v = false ∧ cmp v (val s w) = false)) :
    find cmp s v = some none := by
  have hhp := hwf.1
  have hgo := goStep_goLT cmp hso v
  have hptr := searchPtr_eq cmp s c (goLT cmp v) hwf hgo
  unfold find
  rw [hhp]
  simp only [if_true]
  cases hhd : (c.dropWhile (fun i => cmp (val s i) v)).head? with
  | none =>
    have hsc : fwdR s (descend (goLT cmp v) s s.level_ .head).1 0 = none := by
      rw [hptr]
      simpa [goLT] using hhd
    rw [hsc]
  | some j =>
    rcases search_absent cmp s c hso hwf v habs j hhd with ⟨_, _, hvj⟩
    have hsc : fwdR s (descend (goLT cmp v) s s.level_ .head).1 0 = some j := by
      rw [hptr]
      simpa [goLT] using hhd
    rw [hsc]
    simp [hvj]

theorem lower_bound_eq [Inhabited T] (cmp : T → T → Bool) (s : skip_list T) (c : List Nat)
    (hso : IsSWO cmp) (hwf : Wf cmp s c) (k : T) :
    lower_bound cmp s k = some ((c.dropWhile (fun i => cmp (val s i) k)).head?) := by
  have hhp := hwf.1
  have hgo := goStep_goLT cmp hso k
  have hptr := searchPtr_eq cmp s c (goLT cmp k) hwf hgo
  unfold lower_bound
  rw [hhp]
  simp only [if_true, Option.some.injEq]
  rw [hptr]
  rfl

theorem upper_bound_eq [Inhabited T] (cmp : T → T → Bool) (s : skip_list T) (c : List Nat)
    (hso : IsSWO cmp) (hwf : Wf cmp s c) (k : T) :
    upper_bound cmp s k = some ((c.dropWhile (fun i => !cmp k (val s i))).head?) := by
  have hhp := hwf.1
  have hgo := goStep_goLE cmp hso k
  have hptr := searchPtr_eq cmp s c (goLE cmp k) hwf hgo
  unfold upper_bound
  rw [hhp]
  simp only [if_true, Option.some.injEq]
  rw [hptr]
  rfl

theorem head_dropWhile_map_find [Inhabited T] (s : skip_list T) (c : List Nat)
    (p : T → Bool) :
    Option.map (val s) ((c.dropWhile (fun i => p (val s i))).head?) =
      (c.map (val s)).find? (fun w => !p w) := by
  rw [head_dropWhile_eq_find]
  rw [List.find?_map]
  rfl

/-! ### Arena append and splice loop -/

theorem getD_replicate_none (m L : Nat) : (List.replicate m (none : Ptr)).getD L none = none := by
  induction m generalizing L with
  | zero => simp
  | succ k ih =>
    cases L with
    | zero => simp [List.replicate]
    | succ L' =>
      simp only [List.replicate, List.getD_cons_succ]
      exact ih L'

theorem getNode_append_old [Inhabited T] (s s1 : skip_list T) (nd : SLNode T)
    (h : s1.nodes = s.nodes ++ [nd]) (i : Nat) (hi : i < s.nodes.length) :
    getNode s1 i = getNode s i := by
  unfold getNode
  rw [h]
  exact getD_append_left _ _ i _ hi

theorem getNode_append_new [Inhabited T] (s s1 : skip_list T) (nd : SLNode T)
    (h : s1.nodes = s.nodes ++ [nd]) :
    getNode s1 s.nodes.length = nd := by
  unfold getNode
  rw [h, getD_append_right _ _ _ _ (Nat.le_refl _)]
  simp

theorem capR_congr [Inhabited T] (F s1 : skip_list T)
    (hnl : F.nodes.length = s1.nodes.length) (hhl : F.headF.length = s1.headF.length)
    (hfl : ∀ j, fLen F j = fLen s1 j) : ∀ r, capR F r = capR s1 r := by
  intro r
  cases r with
  | head => simpa [capR] using hhl
  | node i => simp [capR, hnl, hfl]

theorem fwdR_setFwdN_frame [Inhabited T] (s : skip_list T) (nn m : Nat) (p : Ptr)
    (r : NodeRef) (L : Nat) (h : r ≠ .node nn ∨ L ≠ m) :
    fwdR (setFwdN s nn m p) r L = fwdR s r L := by
  cases r with
  | head => rfl
  | node e =>
    rcases h with h | h
    · exact fwdN_setFwdN_ne s nn m p e L (Or.inl (fun hh => h (by rw [hh])))
    · exact fwdN_setFwdN_ne s nn m p e L (Or.inr (fun hh => h hh.symm))

theorem splice_inv [Inhabited T] (upd : List NodeRef) (n : Nat) (s1 : skip_list T)
    (hn : n < s1.nodes.length) :
    ∀ m : Nat,
      (∀ i, i < m → upd.getD i .head ≠ .node n) →
      (∀ i, i < m → i < capR s1 (upd.getD i .head)) →
      m ≤ fLen s1 n →
      ((List.range m).foldl (spliceStep upd n) s1).nodes.length = s1.nodes.length ∧
      ((List.range m).foldl (spliceStep upd n) s1).headF.length = s1.headF.length ∧
      ((List.range m).foldl (spliceStep upd n) s1).headPresent = s1.headPresent ∧
      ((List.range m).foldl (spliceStep upd n) s1).level_ = s1.level_ ∧
      ((List.range m).foldl (spliceStep upd n) s1).size_ = s1.size_ ∧
      (∀ j, val ((List.range m).foldl (spliceStep upd n) s1) j = val s1 j) ∧
      (∀ j, fLen ((List.range m).foldl (spliceStep upd n) s1) j = fLen s1 j) ∧
      (∀ i, i < m → fwdN ((List.range m).foldl (spliceStep upd n) s1) n i =
        fwdR s1 (upd.getD i .head) i) ∧
      (∀ i, i < m → fwdR ((List.range m).foldl (spliceStep upd n) s1)
        (upd.getD i .head) i = some n) ∧
      (∀ (r : NodeRef) (L : Nat), r ≠ .node n →
        (∀ i, i < m → ¬(r = upd.getD i .head ∧ L = i)) →
        fwdR ((List.range m).foldl (spliceStep upd n) s1) r L = fwdR s1 r L) ∧
      (∀ L, m ≤ L → fwdN ((List.range m).foldl (spliceStep upd n) s1) n L = fwdN s1 n L) := by
  intro m
  induction m with
  | zero =>
    intro _ _ _
    rw [List.range_zero]
    refine ⟨rfl, rfl, rfl, rfl, rfl, fun j => rfl, fun j => rfl, ?_, ?_, ?_, ?_⟩
    · intro i hi; exact absurd hi (Nat.not_lt_zero i)
    · intro i hi; exact absurd hi (Nat.not_lt_zero i)
    · intro r L _ _; rfl
    · intro L _; rfl
  | succ m ih =>
    intro h1 h2 h3
    have ihres := ih (fun i hi => h1 i (Nat.lt_succ_of_lt hi))
      (fun i hi => h2 i (Nat.lt_succ_of_lt hi)) (Nat.le_of_succ_le h3)
    obtain ⟨inl, ihl, ihp, ilv, isz, ival, ifl, ic3, ic4, ic5, ic6⟩ := ihres
    have hstep : (List.range (m + 1)).foldl (spliceStep upd n) s1 =
        spliceStep upd n ((List.range m).foldl (spliceStep upd n) s1) m := by
      rw [List.range_succ, List.foldl_append]
      rfl
    set Fm := (List.range m).foldl (spliceStep upd n) s1 with hFm
    set pred := upd.getD m .head with hpred
    have hpredne : pred ≠ .node n := h1 m (Nat.lt_succ_self m)
    have hcapm : m < capR s1 pred := h2 m (Nat.lt_succ_self m)
    have hcapFm : ∀ r, capR Fm r = capR s1 r := capR_congr Fm s1 inl ihl ifl
    have hnxt : fwdR Fm pred m = fwdR s1 pred m := by
      apply ic5 pred m hpredne
      intro i hi hcon
      exact Nat.lt_irrefl i (hcon.2 ▸ hi)
    set st1 := setFwdN Fm n m (fwdR Fm pred m) with hst1
    have hres : (List.range (m + 1)).foldl (spliceStep upd n) s1 =
        setFwdR st1 pred m (some n) := by
      rw [hstep]
      rfl
    have hcapst1 : ∀ r, capR st1 r = capR s1 r := by
      intro r
      rw [hst1]
      have := capR_congr (setFwdN Fm n m (fwdR Fm pred m)) Fm
        (setFwdN_nodesLength ..) (by rw [setFwdN_headF])
        (fun j => fLen_setFwdN Fm n m _ j)
      rw [this r]
      exact hcapFm r
    rw [hres]
    refine ⟨?_, ?_, ?_, ?_, ?_, ?_, ?_, ?_, ?_, ?_, ?_⟩
    · rw [setFwdR_nodesLength, hst1, setFwdN_nodesLength]; exact inl
    · rw [setFwdR_headFLength, hst1, setFwdN_headF]; exact ihl
    · rw [setFwdR_headPresent, hst1, setFwdN_headPresent]; exact ihp
    · rw [setFwdR_level, hst1, setFwdN_level]; exact ilv
    · rw [setFwdR_size, hst1, setFwdN_size]; exact isz
    · intro j; rw [val_setFwdR, hst1, val_setFwdN]; exact ival j
    · intro j; rw [fLen_setFwdR, hst1, fLen_setFwdN]; exact ifl j
    · -- the new node's forward pointers
      intro i hi
      rcases Nat.lt_or_ge i m with him | him
      · rw [show fwdN (setFwdR st1 pred m (some n)) n i =
            fwdR (setFwdR st1 pred m (some n)) (.node n) i from rfl]
        rw [fwdR_setFwdR_ne st1 pred m (some n) (.node n) i
          (Or.inl (fun hh => hpredne hh))]
        rw [hst1, fwdR_setFwdN_frame Fm n m _ (.node n) i (Or.inr (Nat.ne_of_lt him))]
        exact ic3 i him
      · have hieq : i = m := Nat.le_antisymm (Nat.le_of_lt_succ hi) him
        rw [hieq, ← hpred]
        rw [show fwdN (setFwdR st1 pred m (some n)) n m =
            fwdR (setFwdR st1 pred m (some n)) (.node n) m from rfl]
        rw [fwdR_setFwdR_ne st1 pred m (some n) (.node n) m
          (Or.inl (fun hh => hpredne hh))]
        rw [hst1]
        have hnlt : n < Fm.nodes.length := by rw [inl]; exact hn
        have hflt : m < fLen Fm n := by rw [ifl]; exact h3
        rw [show fwdR (setFwdN Fm n m (fwdR Fm pred m)) (.node n) m =
            fwdN (setFwdN Fm n m (fwdR Fm pred m)) n m from rfl]
        rw [fwdN_setFwdN_same Fm n m _ hnlt hflt]
        exact hnxt
    · -- the predecessors now point at the new node
      intro i hi
      rcases Nat.lt_or_ge i m with him | him
      · rw [fwdR_setFwdR_ne st1 pred m (some n) _ i (Or.inr (Nat.ne_of_gt him))]
        rw [hst1, fwdR_setFwdN_frame Fm n m _ _ i (Or.inl (h1 i (Nat.lt_succ_of_lt him)))]
        exact ic4 i him
      · have hieq : i = m := Nat.le_antisymm (Nat.le_of_lt_succ hi) him
        rw [hieq, ← hpred]
        have hc : m < capR st1 pred := by rw [hcapst1]; exact hcapm
        exact fwdR_setFwdR_same st1 pred m (some n) hc
    · -- frame: everything else unchanged
      intro r L hrn hnot
      have hnotm : ¬(r = pred ∧ L = m) := hnot m (Nat.lt_succ_self m)
      have hor : pred ≠ r ∨ m ≠ L := by
        by_cases hr : r = pred
        · right; intro hL; exact hnotm ⟨hr, hL.symm⟩
        · left; intro hh; exact hr hh.symm
      rw [fwdR_setFwdR_ne st1 pred m (some n) r L hor]
      rw [hst1, fwdR_setFwdN_frame Fm n m _ r L (Or.inl hrn)]
      exact ic5 r L hrn (fun i hi => hnot i (Nat.lt_succ_of_lt hi))
    · -- slots of the new node above the splice range
      intro L hL
      rw [show fwdN (setFwdR st1 pred m (some n)) n L =
          fwdR (setFwdR st1 pred m (some n)) (.node n) L from rfl]
      rw [fwdR_setFwdR_ne st1 pred m (some n) (.node n) L
        (Or.inl (fun hh => hpredne hh))]
      rw [hst1, fwdR_setFwdN_frame Fm n m _ (.node n) L (Or.inr (Nat.ne_of_gt hL))]
      exact ic6 L (Nat.le_of_succ_le hL)

theorem getD_length_le {α : Type _} (l : List α) (i : Nat) (d : α) (h : l.length ≤ i) :
    l.getD i d = d := by
  induction l generalizing i with
  | nil => simp
  | cons x xs ih =>
    cases i with
    | zero => simp at h
    | succ j =>
      simp only [List.getD_cons_succ]
      exact ih j (by simpa using h)

theorem lastRef_mem (x : NodeRef) (l : List Nat) :
    (l.getLast? = none ∧ lastRef x l = x) ∨
    (∃ e, l.getLast? = some e ∧ lastRef x l = .node e ∧ e ∈ l) := by
  cases h : l.getLast? with
  | none => left; exact ⟨rfl, by unfold lastRef; rw [h]⟩
  | some e =>
    right
    refine ⟨e, rfl, by unfold lastRef; rw [h], ?_⟩
    exact List.mem_of_mem_getLast? (by rw [h]; rfl)

theorem descend_upd_all [Inhabited T] (cmp : T → T → Bool) (s : skip_list T) (c : List Nat)
    (go : T → Bool) (hwf : Wf cmp s c)
    (hgo : ∀ a b, go a = false → cmp a b = true → go b = false)
    (j : Nat) (hj : j < MAX_LEVEL + 1) :
    (descend go s s.level_ .head).2.getD j .head =
      lastRef .head ((levelChain s j c).takeWhile (fun i => go (val s i))) ∧
    chainSeg s j (fwdR s ((descend go s s.level_ .head).2.getD j .head) j)
      ((levelChain s j c).dropWhile (fun i => go (val s i))) none = true := by
  rcases descend_top cmp s c go hwf hgo with ⟨_, _, hlen, hupd⟩
  rcases le_or_lt j s.level_ with hle | hlt
  · exact hupd j hle
  · have hempty := levelChain_above cmp s c hwf j hj hlt
    have hgd : (descend go s s.level_ .head).2.getD j .head = .head :=
      getD_length_le _ j _ (by rw [hlen]; exact hlt)
    rw [hgd, hempty]
    have hnone : fwdH s j = none := hwf.2.2.2.2.2.2.2.2.1 j hj hlt
    refine ⟨by simp [lastRef], ?_⟩
    show chainSeg s j (fwdH s j) [] none = true
    rw [hnone]
    simp [chainSeg]

theorem fwdR_append_old [Inhabited T] (s s1 : skip_list T) (nd : SLNode T)
    (hnodes : s1.nodes = s.nodes ++ [nd]) (hheadF : s1.headF = s.headF)
    (r : NodeRef) (L : Nat)
    (hr : r = .head ∨ ∃ e, r = .node e ∧ e < s.nodes.length) :
    fwdR s1 r L = fwdR s r L := by
  rcases hr with hr | ⟨e, hr, he⟩
  · subst hr
    simp [fwdR, fwdH, hheadF]
  · subst hr
    show fwdN s1 e L = fwdN s e L
    unfold fwdN
    rw [getNode_append_old s s1 nd hnodes e he]

theorem takeWhile_levelChain [Inhabited T] (cmp : T → T → Bool) (s : skip_list T)
    (c : List Nat) (go : T → Bool)
    (hgo : ∀ a b, go a = false → cmp a b = true → go b = false)
    (hpw : List.Pairwise (fun a b => cmp (val s a) (val s b) = true) c) (L : Nat) :
    (levelChain s L c).takeWhile (fun i => go (val s i)) =
      levelChain s L (c.takeWhile (fun i => go (val s i))) ∧
    (levelChain s L c).dropWhile (fun i => go (val s i)) =
      levelChain s L (c.dropWhile (fun i => go (val s i))) := by
  have hc := takeWhile_eq_filter_of_sorted cmp s go hgo c hpw
  have hlc := takeWhile_eq_filter_of_sorted cmp s go hgo (levelChain s L c)
    (levelChain_pairwise cmp s c L hpw)
  constructor
  · rw [hlc.1, hc.1]
    unfold levelChain
    rw [List.filter_filter, List.filter_filter]
    apply List.filter_congr
    intro a _
    exact Bool.and_comm ..
  · rw [hlc.2, hc.2]
    unfold levelChain
    rw [List.filter_filter, List.filter_filter]
    apply List.filter_congr
    intro a _
    exact Bool.and_comm ..

/-- Rebuilding one level chain after the splice of a new node `n` behind the
predecessor `pred = lastRef head PL`. -/
theorem chainSeg_insert_level [Inhabited T] (s s' : skip_list T) (L : Nat)
    (PL RL : List Nat) (n : Nat) (pred : NodeRef)
    (hold : chainSeg s L (fwdH s L) (PL ++ RL) none = true)
    (hndPR : (PL ++ RL).Nodup)
    (hpredAt : pred = lastRef .head PL)
    (hHnil : PL = [] → fwdH s' L = some n)
    (hHcons : PL ≠ [] → fwdH s' L = fwdH s L)
    (hpredNew : ∀ e, pred = .node e → fwdN s' e L = some n)
    (hnew : fwdN s' n L = fwdR s pred L)
    (hframe : ∀ i ∈ PL ++ RL, (NodeRef.node i) ≠ pred → fwdN s' i L = fwdN s i L) :
    chainSeg s' L (fwdH s' L) (PL ++ n :: RL) none = true := by
  rcases (chainSeg_append ..).1 hold with ⟨mm, hP, hRold⟩
  have hmm : fwdR s pred L = mm := by
    rw [hpredAt]
    exact chainSeg_fwdR_lastRef s L .head PL mm hP
  have hdisj : ∀ a ∈ PL, a ∉ RL := by
    intro a ha hb
    exact (List.disjoint_of_nodup_append hndPR) ha hb
  -- part 2: from the new node onwards
  have hpart2 : chainSeg s' L (some n) (n :: RL) none = true := by
    rw [chainSeg_cons]
    refine ⟨rfl, ?_⟩
    rw [hnew, hmm]
    apply chainSeg_congr s s' L none RL mm _ hRold
    intro i hi
    apply hframe i (List.mem_append.2 (Or.inr hi))
    intro hcon
    rw [hpredAt] at hcon
    rcases lastRef_mem .head PL with ⟨_, hlr⟩ | ⟨e, _, hlr, hmem⟩
    · rw [hlr] at hcon
      exact NodeRef.noConfusion hcon
    · rw [hlr] at hcon
      have hie : i = e := by injection hcon
      rw [hie] at hi
      exact hdisj e hmem hi
  -- part 1: head through PL to the new node
  have hpart1 : chainSeg s' L (fwdH s' L) PL (some n) = true := by
    cases hPL : PL with
    | nil =>
      rw [chainSeg_nil]
      exact hHnil hPL
    | cons p0 prest =>
      have hne : PL ≠ [] := by rw [hPL]; simp
      rcases lastRef_mem .head PL with ⟨hnone, _⟩ | ⟨e, hsome, hlr, hmem⟩
      · rw [hPL] at hnone; simp at hnone
      · have hpred' : pred = .node e := by rw [hpredAt, hlr]
        rcases List.mem_getLast?_eq_getLast (by rw [hsome]; rfl : e ∈ PL.getLast?) with
          ⟨hne', hegl⟩
        have hsplitP : PL.dropLast ++ [e] = PL := by
          rw [hegl]
          exact List.dropLast_append_getLast hne'
        rw [← hPL, ← hsplitP]
        rw [← hsplitP] at hP
        rcases (chainSeg_append ..).1 hP with ⟨m1, hQ, he1⟩
        rw [chainSeg_cons] at he1
        have hndP : PL.Nodup := (List.nodup_append.1 hndPR).1
        have hnotQ : e ∉ PL.dropLast := by
          intro hcon
          have : ¬ (PL.dropLast ++ [e]).Nodup := by
            rw [List.nodup_append]
            intro ⟨_, _, hdj⟩
            exact hdj hcon (by simp)
          rw [hsplitP] at this
          exact this hndP
        apply (chainSeg_append s' L (fwdH s' L) (some n) PL.dropLast [e]).2
        refine ⟨m1, ?_, ?_⟩
        · -- the dropLast part is untouched
          rw [hHcons hne]
          apply chainSeg_congr s s' L m1 PL.dropLast (fwdH s L) _ hQ
          intro i hi
          apply hframe i
          · have : i ∈ PL := (List.dropLast_sublist PL).subset hi
            exact List.mem_append.2 (Or.inl this)
          · rw [hpred']
            intro hcon
            have hie : i = e := by injection hcon
            rw [hie] at hi
            exact hnotQ hi
        · -- the final pointer of the old last element now goes to n
          rw [chainSeg_cons]
          exact ⟨he1.1, by rw [chainSeg_nil]; exact hpredNew e hpred'⟩
  have hfinal := (chainSeg_append ..).2 ⟨some n, hpart1, hpart2⟩
  simpa using hfinal

theorem lastRef_ne_nil (x : NodeRef) (l : List Nat) (h : l ≠ []) :
    ∃ e, lastRef x l = .node e ∧ e ∈ l := by
  rcases lastRef_mem x l with ⟨hnone, _⟩ | ⟨e, _, hlr, hmem⟩
  · cases l with
    | nil => exact absurd rfl h
    | cons a as => simp at hnone
  · exact ⟨e, hlr, hmem⟩

theorem lt_bound_succ {a b M : Nat} (h : a < b + 1) (hb : b ≤ M) : a < M + 1 :=
  Nat.lt_of_lt_of_le h (Nat.succ_le_succ hb)

theorem insertNew_wf [Inhabited T] (cmp : T → T → Bool) (s : skip_list T) (c : List Nat)
    (hso : IsSWO cmp) (hwf : Wf cmp s c) (v : T) (lvl : Nat) (hlvl : lvl ≤ MAX_LEVEL)
    (hhead : ∀ j, (c.dropWhile (fun i => cmp (val s i) v)).head? = some j →
      cmp v (val s j) = true) :
    Wf cmp (insertNew s v lvl (descend (goLT cmp v) s s.level_ .head).2).1
      (c.takeWhile (fun i => cmp (val s i) v) ++ s.nodes.length ::
        c.dropWhile (fun i => cmp (val s i) v)) ∧
    (∀ i, i < s.nodes.length →
      val (insertNew s v lvl (descend (goLT cmp v) s s.level_ .head).2).1 i = val s i) ∧
    val (insertNew s v lvl (descend (goLT cmp v) s s.level_ .head).2).1 s.nodes.length = v ∧
    (insertNew s v lvl (descend (goLT cmp v) s s.level_ .head).2).1.size_ = s.size_ + 1 ∧
    (insertNew s v lvl (descend (goLT cmp v) s s.level_ .head).2).2.1 = some s.nodes.length ∧
    (insertNew s v lvl (descend (goLT cmp v) s s.level_ .head).2).2.2 = true := by
  have hwf0 := hwf
  obtain ⟨hhp, hhl, hlev, hsz, hnd, hnode, hch, hpw, habove, htop⟩ := hwf0
  have hgostep : ∀ a b : T, cmp a v = false → cmp a b = true → cmp b v = false :=
    goStep_goLT cmp hso v
  set upd := (descend (goLT cmp v) s s.level_ .head).2 with hupddef
  set n := s.nodes.length with hndef
  set P := c.takeWhile (fun i => cmp (val s i) v) with hPdef
  set R := c.dropWhile (fun i => cmp (val s i) v) with hRdef
  have hPR : P ++ R = c := List.takeWhile_append_dropWhile ..
  have hupdall : ∀ j, j < MAX_LEVEL + 1 →
      upd.getD j .head =
        lastRef .head ((levelChain s j c).takeWhile (fun i => cmp (val s i) v)) ∧
      chainSeg s j (fwdR s (upd.getD j .head) j)
        ((levelChain s j c).dropWhile (fun i => cmp (val s i) v)) none = true :=
    fun j hj => descend_upd_all cmp s c (goLT cmp v) hwf (goStep_goLT cmp hso v) j hj
  have hPsub : ∀ j, j < MAX_LEVEL + 1 → ∀ e,
      e ∈ (levelChain s j c).takeWhile (fun i => cmp (val s i) v) → e ∈ c ∧ e < n := by
    intro j hj e he
    have h1 : e ∈ levelChain s j c := List.takeWhile_subset _ he
    have h2 : e ∈ c := (List.mem_filter.1 h1).1
    exact ⟨h2, (hnode e h2).1⟩
  set nd0 : SLNode T := ⟨v, List.replicate (lvl + 1) none⟩ with hnd0
  set s1 : skip_list T :=
    { s with nodes := s.nodes ++ [nd0], level_ := max s.level_ lvl } with hs1def
  have hs1nodes : s1.nodes = s.nodes ++ [nd0] := rfl
  have hs1headF : s1.headF = s.headF := rfl
  have hs1len : s1.nodes.length = n + 1 := by
    rw [hs1nodes, List.length_append]
    simp [hndef]
  have hvalold1 : ∀ i, i < n → val s1 i = val s i := by
    intro i hi
    unfold val
    rw [getNode_append_old s s1 nd0 hs1nodes i (hndef ▸ hi)]
  have hvalnew1 : val s1 n = v := by
    unfold val
    rw [hndef, getNode_append_new s s1 nd0 hs1nodes]
  have hflold1 : ∀ i, i < n → fLen s1 i = fLen s i := by
    intro i hi
    unfold fLen
    rw [getNode_append_old s s1 nd0 hs1nodes i (hndef ▸ hi)]
  have hflnew1 : fLen s1 n = lvl + 1 := by
    unfold fLen
    rw [hndef, getNode_append_new s s1 nd0 hs1nodes]
    simp [hnd0]
  have hfwdRold1 : ∀ (r : NodeRef) (L : Nat), (r = .head ∨ ∃ e, r = .node e ∧ e < n) →
      fwdR s1 r L = fwdR s r L := by
    intro r L hr
    apply fwdR_append_old s s1 nd0 hs1nodes hs1headF r L
    rcases hr with h | ⟨e, he, hlt⟩
    · exact Or.inl h
    · exact Or.inr ⟨e, he, hndef ▸ hlt⟩
  have hupdref : ∀ i, i < lvl + 1 →
      upd.getD i .head = .head ∨ ∃ e, upd.getD i .head = .node e ∧
        e ∈ (levelChain s i c).takeWhile (fun j => cmp (val s j) v) := by
    intro i hi
    have h := (hupdall i (lt_bound_succ hi hlvl)).1
    rcases lastRef_mem .head ((levelChain s i c).takeWhile (fun j => cmp (val s j) v)) with
      ⟨_, hlr⟩ | ⟨e, _, hlr, hmem⟩
    · left; rw [h, hlr]
    · right; exact ⟨e, by rw [h, hlr], hmem⟩
  have h1 : ∀ i, i < lvl + 1 → upd.getD i .head ≠ .node n := by
    intro i hi
    rcases hupdref i hi with h | ⟨e, he, hmem⟩
    · rw [h]; intro hcon; exact NodeRef.noConfusion hcon
    · rw [he]
      intro hcon
      have hen : e = n := by injection hcon
      have hlt2 := (hPsub i (lt_bound_succ hi hlvl) e hmem).2
      exact Nat.lt_irrefl n (hen ▸ hlt2)
  have h2 : ∀ i, i < lvl + 1 → i < capR s1 (upd.getD i .head) := by
    intro i hi
    rcases hupdref i hi with h | ⟨e, he, hmem⟩
    · rw [h]
      show i < s1.headF.length
      rw [hs1headF, hhl]
      exact lt_bound_succ hi hlvl
    · rw [he]
      have hec := hPsub i (lt_bound_succ hi hlvl) e hmem
      have hlevmem : e ∈ levelChain s i c := List.takeWhile_subset _ hmem
      have hflt : i < fLen s e := by
        have := (List.mem_filter.1 hlevmem).2
        simpa using this
      have helen : e < s1.nodes.length := by rw [hs1len]; exact Nat.lt_succ_of_lt hec.2
      simp only [capR, helen, if_true]
      rw [hflold1 e hec.2]
      exact hflt
  have h3 : lvl + 1 ≤ fLen s1 n := by rw [hflnew1]
  have hsplice := splice_inv upd n s1 (by rw [hs1len]; exact Nat.lt_succ_self n) (lvl + 1) h1 h2 h3
  obtain ⟨cnl, chl, chp, clv, csz, cval, cfl, c3, c4, c5, c6⟩ := hsplice
  set F := (List.range (lvl + 1)).foldl (spliceStep upd n) s1 with hFdef
  set s' := { F with size_ := F.size_ + 1 } with hs'def
  have hres1 : (insertNew s v lvl upd).1 = s' := rfl
  have hres2 : (insertNew s v lvl upd).2.1 = some n := rfl
  have hres3 : (insertNew s v lvl upd).2.2 = true := rfl
  rw [hres1, hres2, hres3]
  have hs'nodesLen : s'.nodes.length = n + 1 := by
    show F.nodes.length = n + 1
    rw [cnl, hs1len]
  have hval' : ∀ i, i < n → val s' i = val s i := by
    intro i hi
    show val F i = val s i
    rw [cval, hvalold1 i hi]
  have hvaln' : val s' n = v := by
    show val F n = v
    rw [cval, hvalnew1]
  have hfl' : ∀ i, i < n → fLen s' i = fLen s i := by
    intro i hi
    show fLen F i = fLen s i
    rw [cfl, hflold1 i hi]
  have hfln' : fLen s' n = lvl + 1 := by
    show fLen F n = lvl + 1
    rw [cfl, hflnew1]
  have hfr : ∀ (r : NodeRef) (L : Nat), r ≠ .node n →
      (∀ i, i < lvl + 1 → ¬(r = upd.getD i .head ∧ L = i)) →
      (r = .head ∨ ∃ e, r = .node e ∧ e < n) →
      fwdR s' r L = fwdR s r L := by
    intro r L hrn htar holdr
    have h5 := c5 r L hrn htar
    have hsw : fwdR s' r L = fwdR F r L := by cases r <;> rfl
    rw [hsw, h5]
    exact hfwdRold1 r L holdr
  have hlv' : s'.level_ = max s.level_ lvl := by
    show F.level_ = max s.level_ lvl
    rw [clv]
  -- chains of the new state
  have hchain' : ∀ L, L < MAX_LEVEL + 1 →
      chainSeg s' L (fwdH s' L) (levelChain s' L (P ++ n :: R)) none = true := by
    intro L hL
    have hTL :
        (levelChain s L c).takeWhile (fun i => cmp (val s i) v) = levelChain s L P ∧
        (levelChain s L c).dropWhile (fun i => cmp (val s i) v) = levelChain s L R :=
      takeWhile_levelChain cmp s c (fun w => cmp w v) hgostep hpw L
    have hPRL : levelChain s L P ++ levelChain s L R = levelChain s L c := by
      rw [← hTL.1, ← hTL.2]
      exact List.takeWhile_append_dropWhile ..
    have hcondP : ∀ a ∈ P, decide (L < fLen s' a) = decide (L < fLen s a) := by
      intro a ha
      have hac : a ∈ c := by rw [← hPR]; exact List.mem_append.2 (Or.inl ha)
      rw [hfl' a (hnode a hac).1]
    have hcondR : ∀ a ∈ R, decide (L < fLen s' a) = decide (L < fLen s a) := by
      intro a ha
      have hac : a ∈ c := by rw [← hPR]; exact List.mem_append.2 (Or.inr ha)
      rw [hfl' a (hnode a hac).1]
    have hcompute : levelChain s' L (P ++ n :: R) =
        levelChain s L P ++
          (if L < lvl + 1 then n :: levelChain s L R else levelChain s L R) := by
      show (P ++ n :: R).filter (fun i => decide (L < fLen s' i)) = _
      rw [List.filter_append, List.filter_cons, List.filter_congr hcondP,
        List.filter_congr hcondR, hfln']
      by_cases hcase : L < lvl + 1
      · rw [if_pos (by simpa using hcase), if_pos hcase]
        rfl
      · rw [if_neg (by simpa using hcase), if_neg hcase]
        rfl
    by_cases hLle : L < lvl + 1
    · rw [hcompute, if_pos hLle]
      have hPLfact := (hupdall L hL).1
      rw [hTL.1] at hPLfact
      have hRLfact := (hupdall L hL).2
      rw [hTL.2] at hRLfact
      refine chainSeg_insert_level s s' L (levelChain s L P) (levelChain s L R) n
        (upd.getD L .head) ?_ ?_ ?_ ?_ ?_ ?_ ?_ ?_
      · rw [hPRL]; exact hch L hL
      · rw [hPRL]
        exact hnd.filter _
      · exact hPLfact
      · intro hPLnil
        have hAt : upd.getD L .head = .head := by
          rw [hPLfact, hPLnil]; simp [lastRef]
        have h4 := c4 L hLle
        rw [hAt] at h4
        exact h4
      · intro hPLne
        rcases lastRef_ne_nil .head (levelChain s L P) hPLne with ⟨e, hlr, _⟩
        have hAt : upd.getD L .head = .node e := by rw [hPLfact, hlr]
        refine hfr .head L (fun hcon => NodeRef.noConfusion hcon) ?_ (Or.inl rfl)
        intro k hk hcon
        rcases hcon with ⟨hcon1, hcon2⟩
        rw [← hcon2] at hcon1
        rw [hAt] at hcon1
        exact NodeRef.noConfusion hcon1
      · intro e hpred
        have h4 := c4 L hLle
        rw [hpred] at h4
        exact h4
      · have h3' := c3 L hLle
        show fwdN F n L = _
        rw [h3']
        apply hfwdRold1
        rcases hupdref L hLle with h | ⟨e, he, hmem⟩
        · exact Or.inl h
        · exact Or.inr ⟨e, he, (hPsub L (lt_bound_succ hLle hlvl) e hmem).2⟩
      · intro i hi hne
        have hic : i ∈ c := by
          rw [hPRL] at hi
          exact (List.mem_filter.1 hi).1
        have hilt : i < n := (hnode i hic).1
        have := hfr (.node i) L
          (fun hcon => absurd (NodeRef.node.inj hcon ▸ hilt) (Nat.lt_irrefl n))
          (fun k hk hcon => by
            rcases hcon with ⟨hcon1, hcon2⟩
            rw [← hcon2] at hcon1
            exact hne hcon1)
          (Or.inr ⟨i, rfl, hilt⟩)
        exact this
    · rw [hcompute, if_neg hLle, hPRL]
      have hH : fwdH s' L = fwdH s L := by
        refine hfr .head L (fun hcon => NodeRef.noConfusion hcon) ?_ (Or.inl rfl)
        intro k hk hcon
        exact hLle (by rw [hcon.2]; exact hk)
      rw [hH]
      apply chainSeg_congr s s' L none (levelChain s L c) (fwdH s L) _ (hch L hL)
      intro i hi
      have hic : i ∈ c := (List.mem_filter.1 hi).1
      have hilt : i < n := (hnode i hic).1
      exact hfr (.node i) L
        (fun hcon => absurd (NodeRef.node.inj hcon ▸ hilt) (Nat.lt_irrefl n))
        (fun k hk hcon => hLle (by rw [hcon.2]; exact hk))
        (Or.inr ⟨i, rfl, hilt⟩)
  -- sortedness of the new chain
  have hpw' : List.Pairwise (fun a b => cmp (val s' a) (val s' b) = true) (P ++ n :: R) := by
    have hmemP : ∀ a ∈ P, a ∈ c := fun a ha => by
      rw [← hPR]; exact List.mem_append.2 (Or.inl ha)
    have hmemR : ∀ a ∈ R, a ∈ c := fun a ha => by
      rw [← hPR]; exact List.mem_append.2 (Or.inr ha)
    have hvP : ∀ a ∈ P, val s' a = val s a := fun a ha => hval' a (hnode a (hmemP a ha)).1
    have hvR : ∀ a ∈ R, val s' a = val s a := fun a ha => hval' a (hnode a (hmemR a ha)).1
    have hvRgt : ∀ b ∈ R, cmp v (val s b) = true := by
      intro b hb
      have hRne : R ≠ [] := by intro hcon; rw [hcon] at hb; simp at hb
      obtain ⟨j, rest, hRc⟩ : ∃ j rest, R = j :: rest := by
        cases hR0 : R with
        | nil => exact absurd hR0 hRne
        | cons a as => exact ⟨a, as, rfl⟩
      have hj : cmp v (val s j) = true := hhead j (by rw [hRc]; rfl)
      rw [hRc] at hb
      rcases List.mem_cons.1 hb with hbj | hbrest
      · rw [hbj]; exact hj
      · have hpwR : List.Pairwise (fun a b => cmp (val s a) (val s b) = true) R :=
          hpw.sublist (List.dropWhile_sublist _)
        rw [hRc] at hpwR
        have := (List.pairwise_cons.1 hpwR).1 b hbrest
        exact hso.lt_trans v (val s j) (val s b) hj this
    rw [List.pairwise_append]
    refine ⟨?_, ?_, ?_⟩
    · have hpwP : List.Pairwise (fun a b => cmp (val s a) (val s b) = true) P :=
        hpw.sublist (List.takeWhile_sublist _)
      exact hpwP.imp_of_mem (fun ha hb hr => by rw [hvP _ ha, hvP _ hb]; exact hr)
    · rw [List.pairwise_cons]
      constructor
      · intro b hb
        rw [hvaln', hvR b hb]
        exact hvRgt b hb
      · have hpwR : List.Pairwise (fun a b => cmp (val s a) (val s b) = true) R :=
          hpw.sublist (List.dropWhile_sublist _)
        exact hpwR.imp_of_mem (fun ha hb hr => by rw [hvR _ ha, hvR _ hb]; exact hr)
    · intro a ha b hb
      rcases List.mem_cons.1 hb with hbn | hbR
      · rw [hbn, hvP a ha, hvaln']
        have := List.mem_takeWhile_imp ha
        simpa using this
      · rw [hvP a ha, hvR b hbR]
        have hpwc := hpw
        rw [← hPR] at hpwc
        exact (List.pairwise_append.1 hpwc).2.2 a ha b hbR
  refine ⟨⟨?_, ?_, ?_, ?_, ?_, ?_, hchain', hpw', ?_, ?_⟩, ?_, hvaln', ?_, rfl, rfl⟩
  · show F.headPresent = true
    rw [chp]
    exact hhp
  · show F.headF.length = MAX_LEVEL + 1
    rw [chl, hs1headF]
    exact hhl
  · rw [hlv']
    exact max_le hlev hlvl
  · show F.size_ + 1 = (P ++ n :: R).length
    rw [csz]
    show s.size_ + 1 = _
    rw [List.length_append, List.length_cons, hsz]
    have hlen2 : P.length + R.length = c.length := by rw [← hPR, List.length_append]
    rw [← hlen2, Nat.add_assoc]
  · rw [List.nodup_middle, hPR, List.nodup_cons]
    constructor
    · intro hin
      exact Nat.lt_irrefl n (hnode n hin).1
    · exact hnd
  · intro i hi
    rw [List.mem_append, List.mem_cons] at hi
    rcases hi with hiP | hin | hiR
    · have hic : i ∈ c := by rw [← hPR]; exact List.mem_append.2 (Or.inl hiP)
      have hfacts := hnode i hic
      refine ⟨by rw [hs'nodesLen]; exact Nat.lt_succ_of_lt (hndef.symm ▸ hfacts.1), ?_, ?_⟩
      · rw [hfl' i hfacts.1]; exact hfacts.2.1
      · rw [hfl' i hfacts.1]; exact hfacts.2.2
    · rw [hin]
      refine ⟨by rw [hs'nodesLen]; exact Nat.lt_succ_self n, ?_, ?_⟩
      · rw [hfln']; exact Nat.succ_pos lvl
      · rw [hfln']; exact Nat.succ_le_succ hlvl
    · have hic : i ∈ c := by rw [← hPR]; exact List.mem_append.2 (Or.inr hiR)
      have hfacts := hnode i hic
      refine ⟨by rw [hs'nodesLen]; exact Nat.lt_succ_of_lt (hndef.symm ▸ hfacts.1), ?_, ?_⟩
      · rw [hfl' i hfacts.1]; exact hfacts.2.1
      · rw [hfl' i hfacts.1]; exact hfacts.2.2
  · -- nothing above the new top level
    intro L hL hgt
    rw [hlv'] at hgt
    have hH : fwdH s' L = fwdH s L := by
      refine hfr .head L (fun hcon => NodeRef.noConfusion hcon) ?_ (Or.inl rfl)
      intro k hk hcon
      have hLk : L < lvl + 1 := by rw [hcon.2]; exact hk
      exact Nat.lt_irrefl L (Nat.lt_of_le_of_lt (Nat.le_of_lt_succ hLk)
        (Nat.lt_of_le_of_lt (Nat.le_max_right s.level_ lvl) hgt))
    rw [hH]
    exact habove L hL (Nat.lt_of_le_of_lt (Nat.le_max_left s.level_ lvl) hgt)
  · -- the top level is inhabited
    rw [hlv']
    intro hpos
    by_cases hll : lvl ≤ s.level_
    · rw [Nat.max_eq_left hll] at hpos ⊢
      by_cases hstrict : lvl < s.level_
      · have hH : fwdH s' s.level_ = fwdH s s.level_ := by
          refine hfr .head s.level_ (fun hcon => NodeRef.noConfusion hcon) ?_ (Or.inl rfl)
          intro k hk hcon
          have h1 : s.level_ < lvl + 1 := by rw [hcon.2]; exact hk
          exact Nat.lt_irrefl lvl (Nat.lt_of_lt_of_le hstrict (Nat.le_of_lt_succ h1))
        rw [hH]
        exact htop hpos
      · have hleq : s.level_ = lvl := Nat.le_antisymm (Nat.not_lt.1 hstrict) hll
        have hsl : s.level_ < lvl + 1 := by rw [hleq]; exact Nat.lt_succ_self lvl
        rcases hupdref s.level_ hsl with hAt | ⟨e, hAt, _⟩
        · have h4 := c4 s.level_ hsl
          rw [hAt] at h4
          have hsw : fwdH s' s.level_ = some n := h4
          rw [hsw]
          rfl
        · have hH : fwdH s' s.level_ = fwdH s s.level_ := by
            refine hfr .head s.level_ (fun hcon => NodeRef.noConfusion hcon) ?_ (Or.inl rfl)
            intro k hk hcon
            rcases hcon with ⟨hcon1, hcon2⟩
            rw [← hcon2] at hcon1
            rw [hAt] at hcon1
            exact NodeRef.noConfusion hcon1
          rw [hH]
          exact htop hpos
    · have hlt : s.level_ < lvl := Nat.not_le.1 hll
      rw [Nat.max_eq_right (Nat.le_of_lt hlt)]
      have hAt : upd.getD lvl .head = .head := by
        rw [(hupdall lvl (Nat.lt_succ_of_le hlvl)).1,
          levelChain_above cmp s c hwf lvl (Nat.lt_succ_of_le hlvl) hlt]
        simp [lastRef]
      have h4 := c4 lvl (Nat.lt_succ_self lvl)
      rw [hAt] at h4
      have hsw : fwdH s' lvl = some n := h4
      rw [hsw]
      rfl
  · intro i hi
    exact hval' i hi
  · show F.size_ + 1 = s.size_ + 1
    rw [csz]

/-! ### The insert operation -/

theorem insert_eq_def [Inhabited T] (cmp : T → T → Bool) (s : skip_list T) (v : T)
    (lvl : Nat) :
    insert cmp s v lvl =
      (if s.headPresent then
        let r := descend (goLT cmp v) s s.level_ .head
        match fwdR s r.1 0 with
        | some j =>
          if !cmp v (val s j) && !cmp (val s j) v then some (s, some j, false)
          else some (insertNew s v lvl r.2)
        | none => some (insertNew s v lvl r.2)
      else none) := rfl

theorem insert_present [Inhabited T] (cmp : T → T → Bool) (s : skip_list T) (c : List Nat)
    (hso : IsSWO cmp) (hwf : Wf cmp s c) (v : T) (w : Nat) (hw : w ∈ c)
    (hequiv : cmp (val s w) v = false ∧ cmp v (val s w) = false) (lvl : Nat) :
    insert cmp s v lvl = some (s, some w, false) := by
  rw [insert_eq_def]
  rw [hwf.1]
  simp only [if_true]
  have hptr : fwdR s (descend (goLT cmp v) s s.level_ .head).1 0 = some w := by
    rw [searchPtr_eq cmp s c (goLT cmp v) hwf (goStep_goLT cmp hso v)]
    exact search_found cmp s c hso hwf v w hw hequiv
  rw [hptr]
  simp [hequiv.1, hequiv.2]

theorem insert_absent [Inhabited T] (cmp : T → T → Bool) (s : skip_list T) (c : List Nat)
    (hso : IsSWO cmp) (hwf : Wf cmp s c) (v : T) (lvl : Nat) (hlvl : lvl ≤ MAX_LEVEL)
    (habs : ∀ w ∈ c, ¬(cmp (val s w) v = false ∧ cmp v (val s w) = false)) :
    ∃ s', insert cmp s v lvl = some (s', some s.nodes.length, true) ∧
      Wf cmp s' (c.takeWhile (fun i => cmp (val s i) v) ++ s.nodes.length ::
        c.dropWhile (fun i => cmp (val s i) v)) ∧
      (∀ i, i < s.nodes.length → val s' i = val s i) ∧
      val s' s.nodes.length = v ∧ s'.size_ = s.size_ + 1 := by
  have hhead : ∀ j, (c.dropWhile (fun i => cmp (val s i) v)).head? = some j →
      cmp v (val s j) = true := fun j hj => (search_absent cmp s c hso hwf v habs j hj).2.2
  have hmain := insertNew_wf cmp s c hso hwf v lvl hlvl hhead
  obtain ⟨hwfnew, hvold, hvnew, hsznew, hit, hflag⟩ := hmain
  refine ⟨(insertNew s v lvl (descend (goLT cmp v) s s.level_ .head).2).1, ?_,
    hwfnew, hvold, hvnew, hsznew⟩
  have htriple : insertNew s v lvl (descend (goLT cmp v) s s.level_ .head).2 =
      ((insertNew s v lvl (descend (goLT cmp v) s s.level_ .head).2).1,
        some s.nodes.length, true) := by
    have heta : insertNew s v lvl (descend (goLT cmp v) s s.level_ .head).2 =
        ((insertNew s v lvl (descend (goLT cmp v) s s.level_ .head).2).1,
         (insertNew s v lvl (descend (goLT cmp v) s s.level_ .head).2).2.1,
         (insertNew s v lvl (descend (goLT cmp v) s s.level_ .head).2).2.2) := rfl
    rw [heta, hit, hflag]
  rw [insert_eq_def]
  rw [hwf.1]
  simp only [if_true]
  cases hptr : fwdR s (descend (goLT cmp v) s s.level_ .head).1 0 with
  | none =>
    rw [htriple]
  | some j =>
    have hj : j ∈ c ∧ cmp (val s j) v = false ∧ cmp v (val s j) = true := by
      apply search_absent cmp s c hso hwf v habs j
      have h2 : (c.dropWhile (fun i => cmp (val s i) v)).head? =
          fwdR s (descend (goLT cmp v) s s.level_ .head).1 0 :=
        (searchPtr_eq cmp s c (goLT cmp v) hwf (goStep_goLT cmp hso v)).symm
      rw [h2]
      exact hptr
    dsimp only
    rw [if_neg (by simp [hj.2.2])]
    rw [htriple]

/-! ### Relating insert to the specification-side sorted insertion -/

theorem insertSortedSpec_present (cmp : T → T → Bool) (hso : IsSWO cmp) (v : T) :
    ∀ l : List T, List.Pairwise (fun a b => cmp a b = true) l →
      (∃ w ∈ l, cmp w v = false ∧ cmp v w = false) →
      insertSortedSpec cmp v l = l := by
  intro l
  induction l with
  | nil => rintro _ ⟨w, hw, _⟩; simp at hw
  | cons x xs ih =>
    rintro hpw ⟨w, hw, hweq⟩
    rcases List.pairwise_cons.1 hpw with ⟨hhead, htail⟩
    by_cases hx : cmp x v = true
    · have hwx : w ≠ x := by
        intro hcon
        rw [hcon] at hweq
        rw [hx] at hweq
        exact absurd hweq.1 (by simp)
      have hwxs : w ∈ xs := by
        rcases List.mem_cons.1 hw with h | h
        · exact absurd h hwx
        · exact h
      show (if cmp x v then x :: insertSortedSpec cmp v xs else _) = x :: xs
      rw [if_pos hx, ih htail ⟨w, hwxs, hweq⟩]
    · have hx' : cmp x v = false := by simpa using hx
      by_cases hvx : cmp v x = true
      · -- impossible: an equivalent element would sit below x
        exfalso
        rcases List.mem_cons.1 hw with h | h
        · rw [h] at hweq
          rw [hvx] at hweq
          exact absurd hweq.2 (by simp)
        · have hxw : cmp x w = true := hhead w h
          have := hso.lt_trans v x w hvx hxw
          rw [this] at hweq
          exact absurd hweq.2 (by simp)
      · have hvx' : cmp v x = false := by simpa using hvx
        show (if cmp x v then _ else if cmp v x then _ else x :: xs) = x :: xs
        rw [if_neg (by simp [hx']), if_neg (by simp [hvx'])]

theorem insertSortedSpec_absent (cmp : T → T → Bool) (hso : IsSWO cmp) (v : T) :
    ∀ l : List T, List.Pairwise (fun a b => cmp a b = true) l →
      (∀ w ∈ l, ¬(cmp w v = false ∧ cmp v w = false)) →
      insertSortedSpec cmp v l =
        l.takeWhile (fun w => cmp w v) ++ v :: l.dropWhile (fun w => cmp w v) := by
  intro l
  induction l with
  | nil => intro _ _; simp [insertSortedSpec]
  | cons x xs ih =>
    intro hpw habs
    rcases List.pairwise_cons.1 hpw with ⟨hhead, htail⟩
    by_cases hx : cmp x v = true
    · show (if cmp x v then x :: insertSortedSpec cmp v xs else _) = _
      rw [if_pos hx, ih htail (fun w hw => habs w (List.mem_cons_of_mem _ hw))]
      rw [List.takeWhile_cons, List.dropWhile_cons]
      simp [hx]
    · have hx' : cmp x v = false := by simpa using hx
      have hvx : cmp v x = true := by
        cases hvx0 : cmp v x with
        | true => rfl
        | false => exact absurd ⟨hx', hvx0⟩ (habs x (List.mem_cons_self ..))
      show (if cmp x v then _ else if cmp v x then v :: x :: xs else _) = _
      rw [if_neg (by simp [hx']), if_pos hvx]
      rw [List.takeWhile_cons, List.dropWhile_cons]
      simp [hx']

theorem insert_step [Inhabited T] (cmp : T → T → Bool) (s : skip_list T) (c : List Nat)
    (hso : IsSWO cmp) (hwf : Wf cmp s c) (v : T) (lvl : Nat) (hlvl : lvl ≤ MAX_LEVEL) :
    ∃ s' it ins c', insert cmp s v lvl = some (s', it, ins) ∧ Wf cmp s' c' ∧
      toList s' = insertSortedSpec cmp v (toList s) := by
  have hpw := hwf.2.2.2.2.2.2.2.1
  have hnode := hwf.2.2.2.2.2.1
  have hpwv : List.Pairwise (fun a b => cmp a b = true) (toList s) := by
    rw [toList_eq cmp s c hwf]
    exact List.pairwise_map.2 hpw
  by_cases hex : ∃ w ∈ c, cmp (val s w) v = false ∧ cmp v (val s w) = false
  · obtain ⟨w, hw, hequiv⟩ := hex
    refine ⟨s, some w, false, c, insert_present cmp s c hso hwf v w hw hequiv lvl, hwf, ?_⟩
    rw [eq_comm]
    apply insertSortedSpec_present cmp hso v (toList s) hpwv
    refine ⟨val s w, ?_, hequiv⟩
    rw [toList_eq cmp s c hwf]
    exact List.mem_map_of_mem _ hw
  · have habs : ∀ w ∈ c, ¬(cmp (val s w) v = false ∧ cmp v (val s w) = false) :=
      fun w hw h => hex ⟨w, hw, h⟩
    obtain ⟨s', hins, hwf', hvold, hvnew, hsz'⟩ :=
      insert_absent cmp s c hso hwf v lvl hlvl habs
    refine ⟨s', some s.nodes.length, true, _, hins, hwf', ?_⟩
    rw [toList_eq cmp s' _ hwf', toList_eq cmp s c hwf]
    rw [List.map_append, List.map_cons, hvnew]
    have habsv : ∀ w ∈ (toList s), ¬(cmp w v = false ∧ cmp v w = false) := by
      intro w hw
      rw [toList_eq cmp s c hwf] at hw
      rcases List.mem_map.1 hw with ⟨i, hi, hival⟩
      rw [← hival]
      exact habs i hi
    rw [toList_eq cmp s c hwf] at habsv
    rw [insertSortedSpec_absent cmp hso v (c.map (val s)) (List.pairwise_map.2 hpw) habsv]
    rw [List.takeWhile_map, List.dropWhile_map]
    have hcomp : ((fun w => cmp w v) ∘ val s) = (fun i => cmp (val s i) v) := rfl
    rw [hcomp]
    have hP : (c.takeWhile (fun i => cmp (val s i) v)).map (val s') =
        (c.takeWhile (fun i => cmp (val s i) v)).map (val s) := by
      apply List.map_congr_left
      intro a ha
      have hac : a ∈ c := List.takeWhile_subset _ ha
      exact hvold a (hnode a hac).1
    have hR : (c.dropWhile (fun i => cmp (val s i) v)).map (val s') =
        (c.dropWhile (fun i => cmp (val s i) v)).map (val s) := by
      apply List.map_congr_left
      intro a ha
      have hac : a ∈ c := (List.dropWhile_sublist _).subset ha
      exact hvold a (hnode a hac).1
    rw [hP, hR]

/-- Folding insert over a list of inputs preserves well-formedness and refines
the specification-side fold. -/
theorem insertAll_spec [Inhabited T] (cmp : T → T → Bool) (hso : IsSWO cmp) :
    ∀ (inputs : List (T × Nat)) (s : skip_list T) (c : List Nat), Wf cmp s c →
      (∀ p ∈ inputs, p.2 ≤ MAX_LEVEL) →
      ∃ c', Wf cmp (insertAll cmp s inputs) c' ∧
        toList (insertAll cmp s inputs) =
          inputs.foldl (fun acc p => insertSortedSpec cmp p.1 acc) (toList s) := by
  intro inputs
  induction inputs with
  | nil => intro s c hwf _; exact ⟨c, hwf, rfl⟩
  | cons p rest ih =>
    intro s c hwf hbound
    obtain ⟨s', it, ins, c', hins, hwf', htl⟩ :=
      insert_step cmp s c hso hwf p.1 p.2 (hbound p (List.mem_cons_self ..))
    have hstep : insertAll cmp s (p :: rest) = insertAll cmp s' rest := by
      show (match insert cmp s p.1 p.2 with
        | some r => insertAll cmp r.1 rest
        | none => insertAll cmp s rest) = insertAll cmp s' rest
      rw [hins]
    rw [hstep]
    obtain ⟨c'', hwf'', htl''⟩ := ih s' c' hwf'
      (fun q hq => hbound q (List.mem_cons_of_mem _ hq))
    refine ⟨c'', hwf'', ?_⟩
    rw [htl'', htl]
    rfl

theorem emptySL_wf [Inhabited T] (cmp : T → T → Bool) : Wf cmp (emptySL T) [] := by
  refine ⟨rfl, by simp [emptySL], by simp [emptySL, MAX_LEVEL], rfl, List.nodup_nil,
    ?_, ?_, List.Pairwise.nil, ?_, ?_⟩
  · intro i hi; simp at hi
  · intro L hL
    show chainSeg (emptySL T) L (fwdH (emptySL T) L) [] none = true
    have : fwdH (emptySL T) L = none := by
      show (List.replicate (MAX_LEVEL + 1) (none : Ptr)).getD L none = none
      exact getD_replicate_none _ L
    rw [this]
    simp [chainSeg]
  · intro L hL hgt
    show (List.replicate (MAX_LEVEL + 1) (none : Ptr)).getD L none = none
    exact getD_replicate_none _ L
  · intro h
    simp [emptySL] at h

theorem toList_emptySL [Inhabited T] : toList (emptySL T) = [] := rfl

/-! ### Support for erase -/

theorem first_equiv_head [Inhabited T] (cmp : T → T → Bool) (s : skip_list T)
    (hso : IsSWO cmp) (l : List Nat)
    (hpw : List.Pairwise (fun a b => cmp (val s a) (val s b) = true) l) (v : T)
    (w : Nat) (hw : w ∈ l)
    (hequiv : cmp (val s w) v = false ∧ cmp v (val s w) = false) :
    (l.dropWhile (fun i => cmp (val s i) v)).head? = some w := by
  have hgo : ∀ a b : T, cmp a v = false → cmp a b = true → cmp b v = false :=
    goStep_goLT cmp hso v
  rcases takeWhile_eq_filter_of_sorted cmp s (fun w => cmp w v) hgo l hpw with ⟨_, hd⟩
  have hwmem : w ∈ l.dropWhile (fun i => cmp (val s i) v) := by
    rw [hd, List.mem_filter]
    exact ⟨hw, by simp [hequiv.1]⟩
  cases hR : l.dropWhile (fun i => cmp (val s i) v) with
  | nil => rw [hR] at hwmem; simp at hwmem
  | cons j rest =>
    rw [hR] at hwmem
    have hjv : cmp (val s j) v = false := by
      have := head_dropWhile_false (fun i => cmp (val s i) v) l j (by rw [hR]; rfl)
      simpa using this
    have hpwR : List.Pairwise (fun a b => cmp (val s a) (val s b) = true) (j :: rest) := by
      rw [← hR]
      exact hpw.sublist (List.dropWhile_sublist _)
    rcases List.mem_cons.1 hwmem with hwj | hwrest
    · simp [hwj]
    · have hjw : cmp (val s j) (val s w) = true :=
        (List.pairwise_cons.1 hpwR).1 w hwrest
      have hvj : cmp v (val s j) = false := by
        cases hvj : cmp v (val s j) with
        | false => rfl
        | true =>
          have := hso.lt_trans v (val s j) (val s w) hvj hjw
          rw [this] at hequiv
          exact absurd hequiv.2 (by simp)
      have := hso.incomp_trans (val s j) v (val s w) hjv hvj hequiv.2 hequiv.1
      rw [this.1] at hjw
      exact absurd hjw (by simp)

theorem equiv_unique [Inhabited T] (cmp : T → T → Bool) (s : skip_list T)
    (hso : IsSWO cmp) (l : List Nat)
    (hpw : List.Pairwise (fun a b => cmp (val s a) (val s b) = true) l) (v : T)
    (i w : Nat) (hi : i ∈ l) (hw : w ∈ l)
    (heqi : cmp (val s i) v = false ∧ cmp v (val s i) = false)
    (heqw : cmp (val s w) v = false ∧ cmp v (val s w) = false) : i = w := by
  by_contra hne
  have hsym : Symmetric (fun a b : Nat =>
      cmp (val s a) (val s b) = true ∨ cmp (val s b) (val s a) = true) := by
    intro a b h
    exact h.symm
  have hpw2 : List.Pairwise (fun a b : Nat =>
      cmp (val s a) (val s b) = true ∨ cmp (val s b) (val s a) = true) l :=
    hpw.imp (fun h => Or.inl h)
  have hordered := hpw2.forall hsym hi hw hne
  have hincomp := hso.incomp_trans (val s i) v (val s w) heqi.1 heqi.2 heqw.2 heqw.1
  rcases hordered with h | h
  · rw [hincomp.1] at h; exact absurd h (by simp)
  · rw [hincomp.2] at h; exact absurd h (by simp)

theorem fLen_le_level [Inhabited T] (cmp : T → T → Bool) (s : skip_list T) (c : List Nat)
    (hwf : Wf cmp s c) : ∀ i ∈ c, fLen s i ≤ s.level_ + 1 := by
  intro i hi
  by_contra hcon
  push_neg at hcon
  have hle17 : fLen s i ≤ MAX_LEVEL + 1 := (hwf.2.2.2.2.2.1 i hi).2.2
  have hlev := hwf.2.2.1
  have hlt17 : s.level_ + 1 < MAX_LEVEL + 1 := Nat.lt_of_lt_of_le hcon hle17
  have hempty := levelChain_above cmp s c hwf (s.level_ + 1) hlt17
    (Nat.lt_succ_self s.level_)
  have hmem : i ∈ levelChain s (s.level_ + 1) c := by
    show i ∈ c.filter (fun k => decide (s.level_ + 1 < fLen s k))
    rw [List.mem_filter]
    exact ⟨hi, by simpa using hcon⟩
  rw [hempty] at hmem
  simp at hmem

theorem shrink_spec (s : skip_list T) : ∀ L : Nat,
    shrinkLevel s L ≤ L ∧
    (0 < shrinkLevel s L → fwdH s (shrinkLevel s L) ≠ none) ∧
    (∀ K, shrinkLevel s L < K → K ≤ L → fwdH s K = none) := by
  intro L
  induction L with
  | zero =>
    refine ⟨Nat.le_refl _, ?_, ?_⟩
    · intro h; simp [shrinkLevel] at h
    · intro K h1 h2
      simp [shrinkLevel] at h1
      exact absurd (Nat.lt_of_lt_of_le h1 h2) (Nat.lt_irrefl 0)
  | succ L ih =>
    by_cases hc : fwdH s (L + 1) = none
    · have hstep : shrinkLevel s (L + 1) = shrinkLevel s L := by
        simp [shrinkLevel, hc]
      rw [hstep]
      refine ⟨Nat.le_succ_of_le ih.1, ih.2.1, ?_⟩
      intro K h1 h2
      rcases Nat.lt_or_ge K (L + 1) with h | h
      · exact ih.2.2 K h1 (Nat.le_of_lt_succ h)
      · have hK : K = L + 1 := Nat.le_antisymm h2 h
        rw [hK]
        exact hc
    · have hstep : shrinkLevel s (L + 1) = L + 1 := by
        simp [shrinkLevel, hc]
      rw [hstep]
      refine ⟨Nat.le_refl _, fun _ => hc, ?_⟩
      intro K h1 h2
      exact absurd (Nat.lt_of_lt_of_le h1 h2) (Nat.lt_irrefl (L + 1))

theorem rewire_inv [Inhabited T] (upd : List NodeRef) (j : Nat) (m : Nat) :
    ∀ (k i0 : Nat) (st : skip_list T),
      i0 ≤ m → m ≤ i0 + k →
      (∀ i, i0 ≤ i → i < m → fwdR st (upd.getD i .head) i = some j) →
      (m < i0 + k → fwdR st (upd.getD m .head) m ≠ some j) →
      (∀ i, i0 ≤ i → i < m → upd.getD i .head ≠ .node j) →
      (∀ i, i0 ≤ i → i < m → i < capR st (upd.getD i .head)) →
      (rewireLoop upd j i0 k st).nodes.length = st.nodes.length ∧
      (rewireLoop upd j i0 k st).headF.length = st.headF.length ∧
      (rewireLoop upd j i0 k st).headPresent = st.headPresent ∧
      (rewireLoop upd j i0 k st).level_ = st.level_ ∧
      (rewireLoop upd j i0 k st).size_ = st.size_ ∧
      (∀ a, val (rewireLoop upd j i0 k st) a = val st a) ∧
      (∀ a, fLen (rewireLoop upd j i0 k st) a = fLen st a) ∧
      (∀ i, i0 ≤ i → i < m →
        fwdR (rewireLoop upd j i0 k st) (upd.getD i .head) i = fwdN st j i) ∧
      (∀ (r : NodeRef) (L : Nat),
        (∀ i, i0 ≤ i → i < m → ¬(r = upd.getD i .head ∧ L = i)) →
        fwdR (rewireLoop upd j i0 k st) r L = fwdR st r L) := by
  intro k
  induction k with
  | zero =>
    intro i0 st hi0m hmk _ _ _ _
    have hm : m = i0 := Nat.le_antisymm (Nat.add_zero i0 ▸ hmk) hi0m
    show _ ∧ _
    refine ⟨rfl, rfl, rfl, rfl, rfl, fun a => rfl, fun a => rfl, ?_, ?_⟩
    · intro i h1 h2
      exact absurd (Nat.lt_of_lt_of_le (hm ▸ h2) h1) (Nat.lt_irrefl i)
    · intro r L _; rfl
  | succ k ih =>
    intro i0 st hi0m hmk hcond hbreak hne hcap
    by_cases hi0 : i0 = m
    · -- the loop breaks immediately
      have hstop : fwdR st (upd.getD i0 .head) i0 ≠ some j := by
        rw [hi0]
        exact hbreak (by rw [← hi0]; exact Nat.lt_add_of_pos_right (Nat.succ_pos k))
      have hloop : rewireLoop upd j i0 (k + 1) st = st := by
        show (if fwdR st (upd.getD i0 .head) i0 = some j then _ else st) = st
        rw [if_neg hstop]
      rw [hloop]
      refine ⟨rfl, rfl, rfl, rfl, rfl, fun a => rfl, fun a => rfl, ?_, ?_⟩
      · intro i h1 h2
        exact absurd (Nat.lt_of_lt_of_le (hi0.symm ▸ h2) h1) (Nat.lt_irrefl i)
      · intro r L _; rfl
    · -- one more rewiring step
      have hi0m' : i0 < m := Nat.lt_of_le_of_ne hi0m hi0
      have hcondi0 : fwdR st (upd.getD i0 .head) i0 = some j := hcond i0 (Nat.le_refl i0) hi0m'
      have hloop : rewireLoop upd j i0 (k + 1) st =
          rewireLoop upd j (i0 + 1) k
            (setFwdR st (upd.getD i0 .head) i0 (fwdN st j i0)) := by
        show (if fwdR st (upd.getD i0 .head) i0 = some j then _ else st) = _
        rw [if_pos hcondi0]
      set pred := upd.getD i0 .head with hpreddef
      set st' := setFwdR st pred i0 (fwdN st j i0) with hstEq
      have hprednj : pred ≠ .node j := hne i0 (Nat.le_refl i0) hi0m'
      have hst'n : st'.nodes.length = st.nodes.length := setFwdR_nodesLength ..
      have hst'h : st'.headF.length = st.headF.length := setFwdR_headFLength ..
      have hst'p : st'.headPresent = st.headPresent := setFwdR_headPresent ..
      have hst'l : st'.level_ = st.level_ := setFwdR_level ..
      have hst's : st'.size_ = st.size_ := setFwdR_size ..
      have hst'v : ∀ a, val st' a = val st a := fun a => val_setFwdR ..
      have hst'f : ∀ a, fLen st' a = fLen st a := fun a => fLen_setFwdR ..
      have hjpres : ∀ L, fwdN st' j L = fwdN st j L := by
        intro L
        show fwdR st' (.node j) L = fwdR st (.node j) L
        exact fwdR_setFwdR_ne st pred i0 _ (.node j) L (Or.inl hprednj)
      have hcapeq : ∀ r, capR st' r = capR st r :=
        capR_congr st' st hst'n hst'h hst'f
      have hIH := ih (i0 + 1) st' hi0m'
        (by rw [Nat.add_assoc, Nat.add_comm 1 k]; exact hmk)
        (fun i h1 h2 => by
          rw [hstEq, fwdR_setFwdR_ne st pred i0 _ _ i (Or.inr (Nat.ne_of_lt h1))]
          exact hcond i (Nat.le_of_succ_le h1) h2)
        (fun h => by
          rw [hstEq, fwdR_setFwdR_ne st pred i0 _ _ m (Or.inr (Nat.ne_of_lt hi0m'))]
          exact hbreak (by rw [Nat.add_comm k 1, ← Nat.add_assoc]; exact h))
        (fun i h1 h2 => hne i (Nat.le_of_succ_le h1) h2)
        (fun i h1 h2 => by
          rw [hcapeq]
          exact hcap i (Nat.le_of_succ_le h1) h2)
      obtain ⟨rn, rh, rp, rl, rs, rv, rf, r2, r3⟩ := hIH
      rw [hloop]
      refine ⟨by rw [rn, hst'n], by rw [rh, hst'h], by rw [rp, hst'p],
        by rw [rl, hst'l], by rw [rs, hst's],
        fun a => by rw [rv a, hst'v a], fun a => by rw [rf a, hst'f a], ?_, ?_⟩
      · intro i h1 h2
        by_cases hii : i = i0
        · subst hii
          have hfr := r3 pred i (fun i' h1' h2' hcon => by
            rcases hcon with ⟨_, hL⟩
            exact absurd (hL ▸ h1') (Nat.lt_irrefl i'))
          rw [hfr, hstEq]
          exact fwdR_setFwdR_same st pred i _ (hcap i (Nat.le_refl i) h2)
        · have := r2 i (Nat.lt_of_le_of_ne h1 (fun hcon => hii hcon.symm)) h2
          rw [this]
          exact hjpres i
      · intro r L htar
        have hfr := r3 r L (fun i h1 h2 hcon => htar i (Nat.le_of_succ_le h1) h2 hcon)
        rw [hfr, hstEq]
        apply fwdR_setFwdR_ne
        have := htar i0 (Nat.le_refl i0) hi0m'
        by_cases hr : r = pred
        · right
          intro hL
          exact this ⟨hr, hL.symm⟩
        · left
          intro hh
          exact hr hh.symm

/-- Rebuilding one level chain after bypassing the erased node `j` behind the
predecessor `pred = lastRef head PL`. -/
theorem chainSeg_erase_level [Inhabited T] (s s₁ : skip_list T) (L : Nat)
    (PL tailL : List Nat) (j : Nat) (pred : NodeRef)
    (hold : chainSeg s L (fwdH s L) (PL ++ j :: tailL) none = true)
    (hndall : (PL ++ j :: tailL).Nodup)
    (hpredAt : pred = lastRef .head PL)
    (hHnil : PL = [] → fwdH s₁ L = fwdN s j L)
    (hHcons : PL ≠ [] → fwdH s₁ L = fwdH s L)
    (hpredNew : ∀ e, pred = .node e → fwdN s₁ e L = fwdN s j L)
    (hframe : ∀ i ∈ PL ++ tailL, (NodeRef.node i) ≠ pred → fwdN s₁ i L = fwdN s i L) :
    chainSeg s₁ L (fwdH s₁ L) (PL ++ tailL) none = true := by
  rcases (chainSeg_append ..).1 hold with ⟨mm, hP, hJR⟩
  rw [chainSeg_cons] at hJR
  have hmm : fwdR s pred L = some j := by
    rw [hpredAt]
    rw [chainSeg_fwdR_lastRef s L .head PL mm hP]
    exact hJR.1
  have hdisj : ∀ a ∈ PL, a ∉ j :: tailL := by
    intro a ha hb
    exact (List.disjoint_of_nodup_append hndall) ha hb
  have hpredtail : ∀ i ∈ tailL, (NodeRef.node i) ≠ pred := by
    intro i hi hcon
    rw [hpredAt] at hcon
    rcases lastRef_mem .head PL with ⟨_, hlr⟩ | ⟨e, _, hlr, hmem⟩
    · rw [hlr] at hcon
      exact NodeRef.noConfusion hcon
    · rw [hlr] at hcon
      have hie : i = e := by injection hcon
      rw [hie] at hi
      exact hdisj e hmem (List.mem_cons_of_mem _ hi)
  have hpart2 : chainSeg s₁ L (fwdN s j L) tailL none = true := by
    apply chainSeg_congr s s₁ L none tailL (fwdN s j L) _ hJR.2
    intro i hi
    exact hframe i (List.mem_append.2 (Or.inr hi)) (hpredtail i hi)
  have hpart1 : chainSeg s₁ L (fwdH s₁ L) PL (fwdN s j L) = true := by
    cases hPL : PL with
    | nil =>
      rw [chainSeg_nil]
      exact hHnil hPL
    | cons p0 prest =>
      have hne : PL ≠ [] := by rw [hPL]; simp
      rcases lastRef_mem .head PL with ⟨hnone, _⟩ | ⟨e, hsome, hlr, hmem⟩
      · rw [hPL] at hnone; simp at hnone
      · have hpred' : pred = .node e := by rw [hpredAt, hlr]
        rcases List.mem_getLast?_eq_getLast (by rw [hsome]; rfl : e ∈ PL.getLast?) with
          ⟨hne', hegl⟩
        have hsplitP : PL.dropLast ++ [e] = PL := by
          rw [hegl]
          exact List.dropLast_append_getLast hne'
        rw [← hPL, ← hsplitP]
        rw [← hsplitP] at hP
        rcases (chainSeg_append ..).1 hP with ⟨m1, hQ, he1⟩
        rw [chainSeg_cons] at he1
        have hndP : PL.Nodup := (List.nodup_append.1 hndall).1
        have hnotQ : e ∉ PL.dropLast := by
          intro hcon
          have : ¬ (PL.dropLast ++ [e]).Nodup := by
            rw [List.nodup_append]
            intro ⟨_, _, hdj⟩
            exact hdj hcon (by simp)
          rw [hsplitP] at this
          exact this hndP
        apply (chainSeg_append s₁ L (fwdH s₁ L) (fwdN s j L) PL.dropLast [e]).2
        refine ⟨m1, ?_, ?_⟩
        · rw [hHcons hne]
          apply chainSeg_congr s s₁ L m1 PL.dropLast (fwdH s L) _ hQ
          intro i hi
          apply hframe i
          · have : i ∈ PL := (List.dropLast_sublist PL).subset hi
            exact List.mem_append.2 (Or.inl this)
          · rw [hpred']
            intro hcon
            have hie : i = e := by injection hcon
            rw [hie] at hi
            exact hnotQ hi
        · rw [chainSeg_cons]
          exact ⟨he1.1, by rw [chainSeg_nil]; exact hpredNew e hpred'⟩
  exact (chainSeg_append ..).2 ⟨fwdN s j L, hpart1, hpart2⟩

/-! ### The erase operation -/

theorem erase_eq_def [Inhabited T] (cmp : T → T → Bool) (s : skip_list T) (v : T) :
    erase cmp s v =
      (if s.headPresent then
        let r := descend (goLT cmp v) s s.level_ .head
        match fwdR s r.1 0 with
        | none => some (s, 0)
        | some j =>
          if cmp v (val s j) || cmp (val s j) v then some (s, 0)
          else
            let s1 := rewireLoop r.2 j 0 (s.level_ + 1) s
            let s2 := { s1 with level_ := shrinkLevel s1 s1.level_ }
            some ({ s2 with size_ := s2.size_ - 1 }, 1)
      else none) := rfl

theorem erase_absent [Inhabited T] (cmp : T → T → Bool) (s : skip_list T) (c : List Nat)
    (hso : IsSWO cmp) (hwf : Wf cmp s c) (v : T)
    (habs : ∀ w ∈ c, ¬(cmp (val s w) v = false ∧ cmp v (val s w) = false)) :
    erase cmp s v = some (s, 0) := by
  rw [erase_eq_def, hwf.1]
  simp only [if_true]
  cases hptr : fwdR s (descend (goLT cmp v) s s.level_ .head).1 0 with
  | none => rfl
  | some j =>
    have hj : j ∈ c ∧ cmp (val s j) v = false ∧ cmp v (val s j) = true := by
      apply search_absent cmp s c hso hwf v habs j
      have h2 : (c.dropWhile (fun i => cmp (val s i) v)).head? =
          fwdR s (descend (goLT cmp v) s s.level_ .head).1 0 :=
        (searchPtr_eq cmp s c (goLT cmp v) hwf (goStep_goLT cmp hso v)).symm
      rw [h2]
      exact hptr
    dsimp only
    rw [if_pos (by simp [hj.2.2])]

theorem erase_present [Inhabited T] (cmp : T → T → Bool) (s : skip_list T) (c : List Nat)
    (hso : IsSWO cmp) (hwf : Wf cmp s c) (v : T) (w : Nat) (hw : w ∈ c)
    (hequiv : cmp (val s w) v = false ∧ cmp v (val s w) = false) :
    ∃ s₃, erase cmp s v = some (s₃, 1) ∧
      Wf cmp s₃ (c.takeWhile (fun i => cmp (val s i) v) ++
        (c.dropWhile (fun i => cmp (val s i) v)).tail) ∧
      (∀ a, val s₃ a = val s a) ∧
      s₃.size_ = s.size_ - 1 ∧
      (∀ a, a ∈ c.takeWhile (fun i => cmp (val s i) v) ++
          (c.dropWhile (fun i => cmp (val s i) v)).tail →
        ¬(cmp (val s a) v = false ∧ cmp v (val s a) = false)) := by
  have hwf0 := hwf
  obtain ⟨hhp, hhl, hlev, hsz, hnd, hnode, hch, hpw, habove, htop⟩ := hwf0
  have hgostep : ∀ a b : T, cmp a v = false → cmp a b = true → cmp b v = false :=
    goStep_goLT cmp hso v
  set upd := (descend (goLT cmp v) s s.level_ .head).2 with hupddef
  set P := c.takeWhile (fun i => cmp (val s i) v) with hPdef
  set R := c.dropWhile (fun i => cmp (val s i) v) with hRdef
  have hcPR : P ++ R = c := List.takeWhile_append_dropWhile ..
  have hupdall : ∀ j, j < MAX_LEVEL + 1 →
      upd.getD j .head =
        lastRef .head ((levelChain s j c).takeWhile (fun i => cmp (val s i) v)) ∧
      chainSeg s j (fwdR s (upd.getD j .head) j)
        ((levelChain s j c).dropWhile (fun i => cmp (val s i) v)) none = true :=
    fun j hj => descend_upd_all cmp s c (goLT cmp v) hwf (goStep_goLT cmp hso v) j hj
  have hhead : R.head? = some w := search_found cmp s c hso hwf v w hw hequiv
  obtain ⟨t, hRt⟩ : ∃ t, R = w :: t := by
    cases hR0 : R with
    | nil => rw [hR0] at hhead; simp at hhead
    | cons a t0 =>
      rw [hR0] at hhead
      simp only [List.head?_cons, Option.some.injEq] at hhead
      exact ⟨t0, by rw [hhead]⟩
  have htails : R.tail = t := by rw [hRt]; rfl
  set m := fLen s w with hmdef
  have hmle : m ≤ s.level_ + 1 := fLen_le_level cmp s c hwf w hw
  have hm0 : 0 < m := (hnode w hw).2.1
  have hm17all : ∀ i, i < m → i < MAX_LEVEL + 1 := fun i him =>
    Nat.lt_of_lt_of_le him (Nat.le_trans hmle (Nat.succ_le_succ hlev))
  have hchainW : ∀ i, i < m → w ∈ levelChain s i c := by
    intro i him
    show w ∈ c.filter (fun k => decide (i < fLen s k))
    rw [List.mem_filter]
    exact ⟨hw, by simpa using him⟩
  have hcondtrue : ∀ i, i < m → fwdR s (upd.getD i .head) i = some w := by
    intro i him
    have hi17 : i < MAX_LEVEL + 1 := hm17all i him
    have hhd := first_equiv_head cmp s hso (levelChain s i c)
      (levelChain_pairwise cmp s c i hpw) v w (hchainW i him) hequiv
    have hcs := (hupdall i hi17).2
    cases hRi : (levelChain s i c).dropWhile (fun a => cmp (val s a) v) with
    | nil => rw [hRi] at hhd; simp at hhd
    | cons a t0 =>
      rw [hRi] at hhd hcs
      simp only [List.head?_cons, Option.some.injEq] at hhd
      rw [chainSeg_cons] at hcs
      rw [hcs.1, hhd]
  have hbreakM : m < s.level_ + 1 → fwdR s (upd.getD m .head) m ≠ some w := by
    intro hmlt hcon
    have hm17 : m < MAX_LEVEL + 1 := Nat.lt_of_lt_of_le hmlt (Nat.succ_le_succ hlev)
    have hcs := (hupdall m hm17).2
    cases hRm : (levelChain s m c).dropWhile (fun a => cmp (val s a) v) with
    | nil =>
      rw [hRm, chainSeg_nil] at hcs
      rw [hcs] at hcon
      exact Option.noConfusion hcon
    | cons a t0 =>
      rw [hRm] at hcs
      rw [chainSeg_cons] at hcs
      rw [hcs.1] at hcon
      have haw : a = w := by injection hcon
      have hmem : w ∈ levelChain s m c := by
        have ha : a ∈ levelChain s m c := by
          have : a ∈ (levelChain s m c).dropWhile (fun a => cmp (val s a) v) := by
            rw [hRm]; exact List.mem_cons_self ..
          exact (List.dropWhile_sublist _).subset this
        rw [← haw]
        exact ha
      have hmm := (List.mem_filter.1 hmem).2
      simp only [decide_eq_true_eq] at hmm
      exact Nat.lt_irrefl m hmm
  have hneJ : ∀ i, i < m → upd.getD i .head ≠ .node w := by
    intro i him hcon
    have hi17 : i < MAX_LEVEL + 1 := hm17all i him
    rcases lastRef_mem .head
        ((levelChain s i c).takeWhile (fun a => cmp (val s a) v)) with
      ⟨_, hlr⟩ | ⟨e, _, hlr, hmem⟩
    · rw [(hupdall i hi17).1, hlr] at hcon
      exact NodeRef.noConfusion hcon
    · rw [(hupdall i hi17).1, hlr] at hcon
      have hew : e = w := by injection hcon
      rw [hew] at hmem
      have := List.mem_takeWhile_imp hmem
      simp only [decide_eq_true_eq] at this
      rw [hequiv.1] at this
      exact Bool.false_ne_true this
  have hcapI : ∀ i, i < m → i < capR s (upd.getD i .head) := by
    intro i him
    have hi17 : i < MAX_LEVEL + 1 := hm17all i him
    rcases lastRef_mem .head
        ((levelChain s i c).takeWhile (fun a => cmp (val s a) v)) with
      ⟨_, hlr⟩ | ⟨e, _, hlr, hmem⟩
    · rw [(hupdall i hi17).1, hlr]
      show i < s.headF.length
      rw [hhl]
      exact hi17
    · rw [(hupdall i hi17).1, hlr]
      have hmeml : e ∈ levelChain s i c := List.takeWhile_subset _ hmem
      have hec : e ∈ c := (List.mem_filter.1 hmeml).1
      have hflt : i < fLen s e := by
        have := (List.mem_filter.1 hmeml).2
        simpa using this
      have helen : e < s.nodes.length := (hnode e hec).1
      simp only [capR, helen, if_true]
      exact hflt
  have hrw := rewire_inv upd w m (s.level_ + 1) 0 s (Nat.zero_le m)
    (by rw [Nat.zero_add]; exact hmle)
    (fun i _ h2 => hcondtrue i h2)
    (fun h => hbreakM (Nat.zero_add (s.level_ + 1) ▸ h))
    (fun i _ h2 => hneJ i h2)
    (fun i _ h2 => hcapI i h2)
  obtain ⟨rn, rh, rp, rl, rs, rv, rf, r2, r3⟩ := hrw
  set s₁ := rewireLoop upd w 0 (s.level_ + 1) s with hs1def
  set s₂ : skip_list T := { s₁ with level_ := shrinkLevel s₁ s₁.level_ } with hs2def
  set s₃ : skip_list T := { s₂ with size_ := s₂.size_ - 1 } with hs3def
  have hptr : fwdR s (descend (goLT cmp v) s s.level_ .head).1 0 = some w := by
    rw [searchPtr_eq cmp s c (goLT cmp v) hwf (goStep_goLT cmp hso v)]
    exact hhead
  have herase : erase cmp s v = some (s₃, 1) := by
    rw [erase_eq_def, hhp]
    simp only [if_true]
    rw [hptr]
    dsimp only
    rw [if_neg (by simp [hequiv.1, hequiv.2])]
  have hval3 : ∀ a, val s₃ a = val s a := fun a => rv a
  have hfl3 : ∀ a, fLen s₃ a = fLen s a := fun a => rf a
  have hfwdN3 : ∀ a L, fwdN s₃ a L = fwdN s₁ a L := fun a L => rfl
  have hfwdH3 : ∀ L, fwdH s₃ L = fwdH s₁ L := fun L => rfl
  have hnl3 : s₃.nodes.length = s.nodes.length := rn
  have htsub : List.Sublist t R := by rw [hRt]; exact List.sublist_cons_self ..
  have hsubc : List.Sublist (P ++ t) c := by
    rw [← hcPR]
    exact List.Sublist.append_left htsub P
  have hmemc : ∀ a ∈ P ++ t, a ∈ c := fun a ha => hsubc.subset ha
  have hwnot : w ∉ P ++ t := by
    intro hcon
    have hndc := hnd
    rw [← hcPR, hRt] at hndc
    rw [List.nodup_middle] at hndc
    rw [List.nodup_cons] at hndc
    exact hndc.1 hcon
  have hnoeq : ∀ a, a ∈ P ++ t →
      ¬(cmp (val s a) v = false ∧ cmp v (val s a) = false) := by
    intro a ha hcon
    have haw : a = w := equiv_unique cmp s hso c hpw v a w (hmemc a ha) hw hcon hequiv
    rw [haw] at ha
    exact hwnot ha
  rw [htails]
  refine ⟨s₃, herase, ?_, hval3, ?_, hnoeq⟩
  swap
  · show s₂.size_ - 1 = s.size_ - 1
    show s₁.size_ - 1 = s.size_ - 1
    rw [rs]
  -- the well-formedness of the resulting state
  have hlcPR : ∀ L, levelChain s L c = levelChain s L P ++ levelChain s L R := by
    intro L
    conv_lhs => rw [← hcPR]
    show (P ++ R).filter _ = _
    rw [List.filter_append]
    rfl
  have hlcRm : ∀ L, L < m → levelChain s L R = w :: levelChain s L t := by
    intro L hLm
    rw [hRt]
    show (w :: t).filter _ = _
    rw [List.filter_cons]
    rw [if_pos (by simpa using hLm)]
    rfl
  have hlcRge : ∀ L, m ≤ L → levelChain s L R = levelChain s L t := by
    intro L hLm
    rw [hRt]
    show (w :: t).filter _ = _
    rw [List.filter_cons]
    rw [if_neg (by simpa using Nat.not_lt.2 hLm)]
    rfl
  have hTL : ∀ L, (levelChain s L c).takeWhile (fun i => cmp (val s i) v) =
      levelChain s L P :=
    fun L => (takeWhile_levelChain cmp s c (fun x => cmp x v) hgostep hpw L).1
  have hlc3 : ∀ L, levelChain s₃ L (P ++ t) = levelChain s L (P ++ t) := by
    intro L
    show (P ++ t).filter (fun i => decide (L < fLen s₃ i)) =
      (P ++ t).filter (fun i => decide (L < fLen s i))
    apply List.filter_congr
    intro a _
    rw [hfl3 a]
  have hchain3 : ∀ L, L < MAX_LEVEL + 1 →
      chainSeg s₃ L (fwdH s₃ L) (levelChain s₃ L (P ++ t)) none = true := by
    intro L hL
    rw [hlc3 L]
    have hsplitc : levelChain s L (P ++ t) =
        levelChain s L P ++ levelChain s L t := by
      show (P ++ t).filter _ = _
      rw [List.filter_append]
      rfl
    rw [hsplitc]
    rcases Nat.lt_or_ge L m with hLm | hLm
    · -- the erased node participated at this level
      refine chainSeg_erase_level s s₃ L (levelChain s L P) (levelChain s L t) w
        (upd.getD L .head) ?_ ?_ ?_ ?_ ?_ ?_ ?_
      · rw [show levelChain s L P ++ w :: levelChain s L t = levelChain s L c from ?_]
        · exact hch L hL
        · rw [hlcPR L, hlcRm L hLm]
      · rw [show levelChain s L P ++ w :: levelChain s L t = levelChain s L c from ?_]
        · exact hnd.filter _
        · rw [hlcPR L, hlcRm L hLm]
      · rw [(hupdall L hL).1, hTL L]
      · intro hPLnil
        have hAt : upd.getD L .head = .head := by
          rw [(hupdall L hL).1, hTL L, hPLnil]
          simp [lastRef]
        have h2 := r2 L (Nat.zero_le L) hLm
        rw [hAt] at h2
        rw [hfwdH3 L]
        exact h2
      · intro hPLne
        rcases lastRef_ne_nil .head (levelChain s L P) hPLne with ⟨e, hlr, _⟩
        have hAt : upd.getD L .head = .node e := by
          rw [(hupdall L hL).1, hTL L, hlr]
        rw [hfwdH3 L]
        apply r3 .head L
        intro i _ him hcon
        rcases hcon with ⟨hcon1, hcon2⟩
        rw [← hcon2] at hcon1
        rw [hAt] at hcon1
        exact NodeRef.noConfusion hcon1
      · intro e hpred
        have h2 := r2 L (Nat.zero_le L) hLm
        rw [hpred] at h2
        exact h2
      · intro i hi hne
        rw [hfwdN3 i L]
        apply r3 (.node i) L
        intro k _ hkm hcon
        rcases hcon with ⟨hcon1, hcon2⟩
        rw [← hcon2] at hcon1
        exact hne hcon1
    · -- the erased node was absent from this level
      have heq : levelChain s L P ++ levelChain s L t = levelChain s L c := by
        rw [hlcPR L, hlcRge L hLm]
      rw [heq]
      have hH : fwdH s₃ L = fwdH s L := by
        rw [hfwdH3 L]
        apply r3 .head L
        intro k _ hkm hcon
        exact absurd (hcon.2 ▸ hLm) (Nat.not_le.2 hkm)
      rw [hH]
      apply chainSeg_congr s s₃ L none (levelChain s L c) (fwdH s L) _ (hch L hL)
      intro i _
      rw [hfwdN3 i L]
      apply r3 (.node i) L
      intro k _ hkm hcon
      exact absurd (hcon.2 ▸ hLm) (Nat.not_le.2 hkm)
  have hshr := shrink_spec s₁ s₁.level_
  have hlv1 : s₁.level_ = s.level_ := rl
  refine ⟨?_, ?_, ?_, ?_, ?_, ?_, hchain3, ?_, ?_, ?_⟩
  · show s₁.headPresent = true
    rw [rp]
    exact hhp
  · show s₁.headF.length = MAX_LEVEL + 1
    rw [rh]
    exact hhl
  · show shrinkLevel s₁ s₁.level_ ≤ MAX_LEVEL
    exact Nat.le_trans hshr.1 (by rw [hlv1]; exact hlev)
  · show s₂.size_ - 1 = (P ++ t).length
    show s₁.size_ - 1 = _
    rw [rs, hsz, List.length_append]
    have hclen : c.length = P.length + (t.length + 1) := by
      rw [← hcPR, hRt, List.length_append, List.length_cons]
    rw [hclen, ← Nat.add_assoc, Nat.add_sub_cancel]
  · exact hnd.sublist hsubc
  · intro i hi
    have hic : i ∈ c := hmemc i hi
    have hfacts := hnode i hic
    refine ⟨?_, ?_, ?_⟩
    · rw [hnl3]; exact hfacts.1
    · rw [hfl3 i]; exact hfacts.2.1
    · rw [hfl3 i]; exact hfacts.2.2
  · have hpwsub : List.Pairwise (fun a b => cmp (val s a) (val s b) = true) (P ++ t) :=
      hpw.sublist hsubc
    exact hpwsub.imp_of_mem (fun ha hb hr => by rw [hval3, hval3]; exact hr)
  · intro L hL hgt
    have hgt' : shrinkLevel s₁ s₁.level_ < L := hgt
    rcases le_or_lt L s.level_ with hle | hlt
    · exact hshr.2.2 L hgt' (by rw [hlv1]; exact hle)
    · have hH : fwdH s₃ L = fwdH s L := by
        rw [hfwdH3 L]
        apply r3 .head L
        intro k _ hkm hcon
        rcases hcon with ⟨_, hck⟩
        have hLlt : L < m := hck.symm ▸ hkm
        exact Nat.lt_irrefl L (Nat.lt_of_le_of_lt
          (Nat.le_of_lt_succ (Nat.lt_of_lt_of_le hLlt hmle)) hlt)
      rw [hH]
      exact habove L hL hlt
  · intro hpos
    have h := hshr.2.1 hpos
    show (fwdH s₁ (shrinkLevel s₁ s₁.level_)).isSome = true
    exact Option.ne_none_iff_isSome.1 h

/-! ### Folding sorted insertion over an already sorted list -/

theorem insertSortedSpec_append_all (cmp : T → T → Bool) (v : T) :
    ∀ acc : List T, (∀ x ∈ acc, cmp x v = true) →
      insertSortedSpec cmp v acc = acc ++ [v] := by
  intro acc
  induction acc with
  | nil => intro _; rfl
  | cons x xs ih =>
    intro hall
    show (if cmp x v then x :: insertSortedSpec cmp v xs
      else if cmp v x then v :: x :: xs else x :: xs) = _
    rw [if_pos (hall x (List.mem_cons_self ..))]
    rw [ih (fun y hy => hall y (List.mem_cons_of_mem _ hy))]
    rfl

theorem foldl_insertSortedSpec_sorted (cmp : T → T → Bool) :
    ∀ (l acc : List T), List.Pairwise (fun a b => cmp a b = true) (acc ++ l) →
      l.foldl (fun a v => insertSortedSpec cmp v a) acc = acc ++ l := by
  intro l
  induction l with
  | nil => intro acc _; simp
  | cons v rest ih =>
    intro acc hpw
    have hall : ∀ x ∈ acc, cmp x v = true := by
      intro x hx
      exact (List.pairwise_append.1 hpw).2.2 x hx v (List.mem_cons_self ..)
    show rest.foldl (fun a u => insertSortedSpec cmp u a) (insertSortedSpec cmp v acc) =
      acc ++ v :: rest
    rw [insertSortedSpec_append_all cmp v acc hall]
    have hpw' : List.Pairwise (fun a b => cmp a b = true) ((acc ++ [v]) ++ rest) := by
      rw [List.append_assoc]
      exact hpw
    rw [ih (acc ++ [v]) hpw']
    rw [List.append_assoc]
    rfl

theorem sortedDedup_of_sorted (cmp : T → T → Bool) (l : List T)
    (hpw : List.Pairwise (fun a b => cmp a b = true) l) :
    sortedDedup cmp l = l := by
  unfold sortedDedup
  have := foldl_insertSortedSpec_sorted cmp l [] (by simpa using hpw)
  simpa using this

/-! ### The equality walk -/

theorem eqLoop_spec [Inhabited T] (bne : T → T → Bool) (s rhs : skip_list T) :
    ∀ (la lb : List Nat) (fuel : Nat) (p q : Ptr),
      chainSeg s 0 p la none = true → chainSeg rhs 0 q lb none = true →
      la.length = lb.length → la.length ≤ fuel →
      eqLoop bne s rhs fuel p q =
        some (((la.map (val s)).zip (lb.map (val rhs))).all
          (fun pr => !bne pr.1 pr.2)) := by
  intro la
  induction la with
  | nil =>
    intro lb fuel p q hpa hqb hlen _
    have hp : p = none := by
      have : (p == (none : Ptr)) = true := hpa
      simpa using this
    cases lb with
    | nil =>
      rw [hp]
      cases fuel <;> rfl
    | cons b bs => simp at hlen
  | cons i la' ih =>
    intro lb fuel p q hpa hqb hlen hfuel
    cases lb with
    | nil => simp at hlen
    | cons j lb' =>
      rw [chainSeg_cons] at hpa hqb
      cases fuel with
      | zero => simp at hfuel
      | succ f =>
        rw [hpa.1, hqb.1]
        show (if bne (val s i) (val rhs j) then some false
          else eqLoop bne s rhs f (fwdN s i 0) (fwdN rhs j 0)) = _
        rcases Bool.eq_false_or_eq_true (bne (val s i) (val rhs j)) with hb | hb
        · rw [if_pos hb]
          simp [hb]
        · rw [if_neg (by simp [hb])]
          have hrec := ih lb' f (fwdN s i 0) (fwdN rhs j 0) hpa.2 hqb.2
            (by simpa using hlen) (by simpa using hfuel)
          rw [hrec]
          simp [hb]

theorem eqOp_spec [Inhabited T] (bne cmpa cmpb : T → T → Bool) (a b : skip_list T)
    (ca cb : List Nat) (hwfa : Wf cmpa a ca) (hwfb : Wf cmpb b cb) :
    eqOp bne a b = some (decide (sizeOp a = sizeOp b) &&
      ((toList a).zip (toList b)).all (fun pr => !bne pr.1 pr.2)) := by
  have hwfa0 := hwfa
  have hwfb0 := hwfb
  obtain ⟨hhpa, _, _, hsza, hnda, hnodea, hcha, _, _, _⟩ := hwfa0
  obtain ⟨hhpb, _, _, hszb, hndb, hnodeb, hchb, _, _, _⟩ := hwfb0
  by_cases hsz : a.size_ = b.size_
  · unfold eqOp
    rw [if_neg (by simp [hsz])]
    rw [hhpa, hhpb]
    simp only [Bool.and_self, if_true]
    have hca : chainSeg a 0 (fwdH a 0) ca none = true := by
      have h := hcha 0 (Nat.succ_pos MAX_LEVEL)
      rw [levelChain_zero a ca (fun i hi => (hnodea i hi).2.1)] at h
      exact h
    have hcb : chainSeg b 0 (fwdH b 0) cb none = true := by
      have h := hchb 0 (Nat.succ_pos MAX_LEVEL)
      rw [levelChain_zero b cb (fun i hi => (hnodeb i hi).2.1)] at h
      exact h
    have hlen : ca.length = cb.length := by rw [← hsza, ← hszb]; exact hsz
    have hfuel : ca.length ≤ a.nodes.length + 1 :=
      Nat.le_succ_of_le (length_le_of_nodup_bounded ca a.nodes.length hnda
        (fun i hi => (hnodea i hi).1))
    rw [eqLoop_spec bne a b ca cb (a.nodes.length + 1) (fwdH a 0) (fwdH b 0)
      hca hcb hlen hfuel]
    rw [toList_eq cmpa a ca hwfa, toList_eq cmpb b cb hwfb]
    have hdec : decide (sizeOp a = sizeOp b) = true := by
      simp [sizeOp, hsz]
    rw [hdec]
    simp
  · unfold eqOp
    rw [if_pos (by simpa using hsz)]
    have hdec : decide (sizeOp a = sizeOp b) = false := by
      simp [sizeOp]
      exact hsz
    rw [hdec]
    simp

/-! ### The tracked top level -/

theorem Wf_levelOk [Inhabited T] (cmp : T → T → Bool) (s : skip_list T) (c : List Nat)
    (hwf : Wf cmp s c) : levelOk s :=
  ⟨hwf.2.2.2.2.2.2.2.2.1, hwf.2.2.2.2.2.2.2.2.2⟩

theorem randomLevelAux_le : ∀ (coins : List Bool) (lvl : Nat), lvl ≤ MAX_LEVEL →
    randomLevelAux lvl coins ≤ MAX_LEVEL := by
  intro coins
  induction coins with
  | nil => intro lvl h; exact h
  | cons c rest ih =>
    intro lvl h
    show (if lvl < MAX_LEVEL && c then randomLevelAux (lvl + 1) rest else lvl) ≤ MAX_LEVEL
    by_cases hc : (lvl < MAX_LEVEL && c) = true
    · rw [if_pos hc]
      have hlt : lvl < MAX_LEVEL := by
        simp only [Bool.and_eq_true, decide_eq_true_eq] at hc
        exact hc.1
      exact ih (lvl + 1) hlt
    · rw [if_neg hc]
      exact h

theorem random_level_le (coins : List Bool) : random_level coins ≤ MAX_LEVEL :=
  randomLevelAux_le coins 0 (by simp [MAX_LEVEL])

/-! ### Totality of the public operations on a live structure -/

theorem insert_isSome [Inhabited T] (cmp : T → T → Bool) (s : skip_list T) (v : T)
    (lvl : Nat) (hhp : s.headPresent = true) : (insert cmp s v lvl).isSome = true := by
  rw [insert_eq_def, hhp]
  simp only [if_true]
  cases fwdR s (descend (goLT cmp v) s s.level_ .head).1 0 with
  | none => rfl
  | some j =>
    dsimp only
    split <;> rfl

theorem erase_isSome [Inhabited T] (cmp : T → T → Bool) (s : skip_list T) (v : T)
    (hhp : s.headPresent = true) : (erase cmp s v).isSome = true := by
  rw [erase_eq_def, hhp]
  simp only [if_true]
  cases fwdR s (descend (goLT cmp v) s s.level_ .head).1 0 with
  | none => rfl
  | some j =>
    dsimp only
    split <;> rfl

theorem find_isSome [Inhabited T] (cmp : T → T → Bool) (s : skip_list T) (v : T)
    (hhp : s.headPresent = true) : (find cmp s v).isSome = true := by
  unfold find
  rw [hhp]
  simp only [if_true]
  cases fwdR s (descend (goLT cmp v) s s.level_ .head).1 0 with
  | none => rfl
  | some j =>
    dsimp only
    split <;> rfl

theorem lower_bound_isSome [Inhabited T] (cmp : T → T → Bool) (s : skip_list T) (k : T)
    (hhp : s.headPresent = true) : (lower_bound cmp s k).isSome = true := by
  unfold lower_bound
  rw [hhp]
  rfl

theorem upper_bound_isSome [Inhabited T] (cmp : T → T → Bool) (s : skip_list T) (k : T)
    (hhp : s.headPresent = true) : (upper_bound cmp s k).isSome = true := by
  unfold upper_bound
  rw [hhp]
  rfl

theorem count_isSome [Inhabited T] (cmp : T → T → Bool) (s : skip_list T) (k : T)
    (hhp : s.headPresent = true) : (count cmp s k).isSome = true := by
  have h := find_isSome cmp s k hhp
  unfold count
  cases hf : find cmp s k with
  | none => rw [hf] at h; simp at h
  | some x => rfl

theorem contains_isSome [Inhabited T] (cmp : T → T → Bool) (s : skip_list T) (k : T)
    (hhp : s.headPresent = true) : (contains cmp s k).isSome = true := by
  have h := count_isSome cmp s k hhp
  unfold contains
  cases hf : count cmp s k with
  | none => rw [hf] at h; simp at h
  | some x => rfl

theorem copySL_isSome [Inhabited T] (cmp : T → T → Bool) (s : skip_list T)
    (lvls : List Nat) (hhp : s.headPresent = true) : (copySL cmp s lvls).isSome = true := by
  unfold copySL
  rw [hhp]
  rfl

/-! ### Moved-from, clear, destructor, iterators -/

theorem movedFrom_empty (s : skip_list T) : emptyB (movedFrom s) = true := rfl

theorem movedFrom_size (s : skip_list T) : sizeOp (movedFrom s) = 0 := rfl

theorem destruct_movedFrom (s : skip_list T) : destruct (movedFrom s) = movedFrom s := by
  simp [destruct, movedFrom]

theorem clear_movedFrom (s : skip_list T) : clear (movedFrom s) = movedFrom s := by
  simp [clear, movedFrom]

theorem insert_movedFrom [Inhabited T] (cmp : T → T → Bool) (s : skip_list T) (v : T)
    (lvl : Nat) : insert cmp (movedFrom s) v lvl = none := rfl

theorem clear_eq (s : skip_list T) (hhp : s.headPresent = true) :
    clear s = { s with nodes := [], headF := List.replicate (MAX_LEVEL + 1) none, level_ := 0, size_ := 0 } := by
  unfold clear
  rw [if_pos hhp]

theorem clear_levelOk (s : skip_list T) (hhp : s.headPresent = true) :
    levelOk (clear s) := by
  have hc := clear_eq s hhp
  constructor
  · intro L hL hgt
    rw [hc]
    show (List.replicate (MAX_LEVEL + 1) (none : Ptr)).getD L none = none
    exact getD_replicate_none _ L
  · intro h0
    rw [hc] at h0
    simp at h0

theorem derefIter_eq_map [Inhabited T] (s : skip_list T) (p : Ptr) :
    derefIter s p = p.map (val s) := by
  cases p <;> rfl

theorem all_zip_self (bne : T → T → Bool) (hbne : ∀ x, bne x x = false) :
    ∀ l : List T, ((l.zip l).all (fun pr => !bne pr.1 pr.2)) = true := by
  intro l
  induction l with
  | nil => rfl
  | cons x xs ih => simp [hbne x, ih]

theorem isSWO_natLess : IsSWO natLess := by
  refine ⟨?_, ?_, ?_⟩
  · intro x; simp [natLess]
  · intro x y z h1 h2
    simp only [natLess, decide_eq_true_eq] at h1 h2 ⊢
    exact Nat.lt_trans h1 h2
  · intro x y z h1 h2 h3 h4
    simp only [natLess, decide_eq_false_iff_not] at h1 h2 h3 h4 ⊢
    have hxy : x = y := Nat.le_antisymm (Nat.le_of_not_lt h2) (Nat.le_of_not_lt h1)
    have hyz : y = z := Nat.le_antisymm (Nat.le_of_not_lt h4) (Nat.le_of_not_lt h3)
    rw [hxy, hyz]
    exact ⟨Nat.lt_irrefl z, Nat.lt_irrefl z⟩

/-! ### The claims -/

/-- C1: for every sequence of insert calls starting from the empty skip_list
(each with its drawn level within bounds), the in-order traversal yields a
strictly ascending sequence under the comparator, equal to the sorted,
deduplicated (first occurrence wins) form of the inserted values. -/
theorem C1_sorted_traversal [Inhabited T] (cmp : T → T → Bool) (hso : IsSWO cmp)
    (inputs : List (T × Nat)) (hlv : ∀ p ∈ inputs, p.2 ≤ MAX_LEVEL) :
    toList (insertAll cmp (emptySL T) inputs) = sortedDedup cmp (inputs.map Prod.fst) ∧
    List.Pairwise (fun a b => cmp a b = true)
      (toList (insertAll cmp (emptySL T) inputs)) := by
  obtain ⟨c', hwf', htl⟩ := insertAll_spec cmp hso inputs (emptySL T) [] (emptySL_wf cmp) hlv
  constructor
  · rw [htl]
    unfold sortedDedup
    rw [List.foldl_map]
    rfl
  · rw [toList_eq cmp _ c' hwf']
    exact List.pairwise_map.2 hwf'.2.2.2.2.2.2.2.1

theorem C1_witness :
    IsSWO natLess ∧ (∀ p ∈ ([(2, 0), (1, 1), (2, 3)] : List (Nat × Nat)), p.2 ≤ MAX_LEVEL) ∧
    (toList (insertAll natLess (emptySL Nat) [(2, 0), (1, 1), (2, 3)]) =
      sortedDedup natLess ([((2 : Nat), (0 : Nat)), (1, 1), (2, 3)].map Prod.fst) ∧
     List.Pairwise (fun a b => natLess a b = true)
       (toList (insertAll natLess (emptySL Nat) [(2, 0), (1, 1), (2, 3)]))) :=
  ⟨isSWO_natLess, by decide,
   C1_sorted_traversal natLess isSWO_natLess [(2, 0), (1, 1), (2, 3)] (by decide)⟩

/-- C2: inserting a value whose key is Compare-equivalent to a stored element
returns the pair (iterator to the existing element, inserted = false) and the
state is returned unchanged — the very same state, so size, level and the
level-0 sequence are untouched. -/
theorem C2_duplicate_insert [Inhabited T] (cmp : T → T → Bool) (s : skip_list T)
    (c : List Nat) (hso : IsSWO cmp) (hwf : Wf cmp s c) (v : T) (w : Nat) (hw : w ∈ c)
    (hequiv : cmp (val s w) v = false ∧ cmp v (val s w) = false) (lvl : Nat) :
    insert cmp s v lvl = some (s, some w, false) ∧
    derefIter s (some w) = some (val s w) :=
  ⟨insert_present cmp s c hso hwf v w hw hequiv lvl, rfl⟩

theorem C2_witness :
    IsSWO natLess ∧ Wf natLess sample2 [0, 1] ∧ 0 ∈ [0, 1] ∧
    (natLess (val sample2 0) 5 = false ∧ natLess 5 (val sample2 0) = false) ∧
    (insert natLess sample2 5 3 = some (sample2, some 0, false) ∧
     derefIter sample2 (some 0) = some (val sample2 0)) :=
  ⟨isSWO_natLess, by decide, by decide, by decide,
   C2_duplicate_insert natLess sample2 [0, 1] isSWO_natLess (by decide) 5 0
     (by decide) (by decide) 3⟩

/-- C3: erasing a present key returns 1, decrements the size by exactly one
and a subsequent find for that key returns the end iterator; erasing an
absent key returns 0 and hands back the unchanged state. -/
theorem C3_erase_find [Inhabited T] (cmp : T → T → Bool) (s : skip_list T)
    (c : List Nat) (hso : IsSWO cmp) (hwf : Wf cmp s c) (v : T) :
    ((∃ w ∈ c, cmp (val s w) v = false ∧ cmp v (val s w) = false) →
      ∃ s₃, erase cmp s v = some (s₃, 1) ∧ sizeOp s₃ = sizeOp s - 1 ∧
        find cmp s₃ v = some none) ∧
    ((∀ w ∈ c, ¬(cmp (val s w) v = false ∧ cmp v (val s w) = false)) →
      erase cmp s v = some (s, 0)) := by
  constructor
  · rintro ⟨w, hw, hequiv⟩
    obtain ⟨s₃, her, hwf₃, hval₃, hsz₃, hnoeq⟩ :=
      erase_present cmp s c hso hwf v w hw hequiv
    refine ⟨s₃, her, hsz₃, ?_⟩
    apply find_absent cmp s₃ _ hso hwf₃ v
    intro a ha hcon
    rw [hval₃ a] at hcon
    exact hnoeq a ha hcon
  · intro habs
    exact erase_absent cmp s c hso hwf v habs

theorem C3_witness :
    IsSWO natLess ∧ Wf natLess sample2 [0, 1] ∧
    (((∃ w ∈ [0, 1], natLess (val sample2 w) 5 = false ∧
          natLess 5 (val sample2 w) = false) →
        ∃ s₃, erase natLess sample2 5 = some (s₃, 1) ∧
          sizeOp s₃ = sizeOp sample2 - 1 ∧ find natLess s₃ 5 = some none) ∧
     ((∀ w ∈ [0, 1], ¬(natLess (val sample2 w) 5 = false ∧
          natLess 5 (val sample2 w) = false)) →
        erase natLess sample2 5 = some (sample2, 0))) :=
  ⟨isSWO_natLess, by decide,
   C3_erase_find natLess sample2 [0, 1] isSWO_natLess (by decide) 5⟩

/-- C4: lower_bound returns an iterator to the first element in iteration
order not strictly less than the key (end if none), and upper_bound to the
first element the key is strictly less than (end if none); the returned
iterator dereferences to exactly the corresponding first match of the
traversal. -/
theorem C4_bounds [Inhabited T] (cmp : T → T → Bool) (s : skip_list T)
    (c : List Nat) (hso : IsSWO cmp) (hwf : Wf cmp s c) (k : T) :
    (∃ p, lower_bound cmp s k = some p ∧
      derefIter s p = (toList s).find? (fun x => !cmp x k)) ∧
    (∃ p, upper_bound cmp s k = some p ∧
      derefIter s p = (toList s).find? (fun x => cmp k x)) := by
  constructor
  · refine ⟨_, lower_bound_eq cmp s c hso hwf k, ?_⟩
    rw [derefIter_eq_map]
    have hmf : Option.map (val s) ((c.dropWhile (fun i => cmp (val s i) k)).head?) =
        (c.map (val s)).find? (fun w => !cmp w k) :=
      head_dropWhile_map_find s c (fun x => cmp x k)
    rw [hmf, toList_eq cmp s c hwf]
  · refine ⟨_, upper_bound_eq cmp s c hso hwf k, ?_⟩
    rw [derefIter_eq_map]
    have hmf : Option.map (val s) ((c.dropWhile (fun i => !cmp k (val s i))).head?) =
        (c.map (val s)).find? (fun w => !(!cmp k w)) :=
      head_dropWhile_map_find s c (fun x => !cmp k x)
    rw [hmf]
    have hnn : (fun w : T => !(!cmp k w)) = (fun w => cmp k w) :=
      funext fun w => Bool.not_not _
    rw [hnn, toList_eq cmp s c hwf]

theorem C4_witness :
    IsSWO natLess ∧ Wf natLess sample2 [0, 1] ∧
    ((∃ p, lower_bound natLess sample2 6 = some p ∧
        derefIter sample2 p = (toList sample2).find? (fun x => !natLess x 6)) ∧
     (∃ p, upper_bound natLess sample2 6 = some p ∧
        derefIter sample2 p = (toList sample2).find? (fun x => natLess 6 x))) :=
  ⟨isSWO_natLess, by decide,
   C4_bounds natLess sample2 [0, 1] isSWO_natLess (by decide) 6⟩

/-- C5: two skip_lists compare equal exactly when their sizes agree and the
level-0 in-order sequences are element-wise equal under the element type's
own inequality (operator bne reporting false), independent of the
comparators. -/
theorem C5_operator_eq [Inhabited T] (bne cmpa cmpb : T → T → Bool)
    (a b : skip_list T) (ca cb : List Nat)
    (hwfa : Wf cmpa a ca) (hwfb : Wf cmpb b cb) :
    (eqOp bne a b = some true ↔
      sizeOp a = sizeOp b ∧
      List.Forall₂ (fun x y => bne x y = false) (toList a) (toList b)) := by
  rw [eqOp_spec bne cmpa cmpb a b ca cb hwfa hwfb]
  constructor
  · intro h
    have h' : (decide (sizeOp a = sizeOp b) &&
        ((toList a).zip (toList b)).all (fun pr => !bne pr.1 pr.2)) = true :=
      Option.some.inj h
    rw [Bool.and_eq_true] at h'
    have hsz : sizeOp a = sizeOp b := of_decide_eq_true h'.1
    refine ⟨hsz, ?_⟩
    have hlen : (toList a).length = (toList b).length := by
      rw [toList_eq cmpa a ca hwfa, toList_eq cmpb b cb hwfb,
        List.length_map, List.length_map]
      have h1 : a.size_ = ca.length := hwfa.2.2.2.1
      have h2 : b.size_ = cb.length := hwfb.2.2.2.1
      have h3 : a.size_ = b.size_ := hsz
      rw [← h1, ← h2]
      exact h3
    rw [List.forall₂_iff_zip]
    refine ⟨hlen, ?_⟩
    intro x y hxy
    have hall := h'.2
    rw [List.all_eq_true] at hall
    have := hall (x, y) hxy
    simpa using this
  · rintro ⟨hsz, hf2⟩
    have h1 : decide (sizeOp a = sizeOp b) = true := decide_eq_true hsz
    have h2 : ((toList a).zip (toList b)).all (fun pr => !bne pr.1 pr.2) = true := by
      rw [List.all_eq_true]
      intro pr hpr
      rcases pr with ⟨x, y⟩
      have hmem := (List.forall₂_iff_zip.1 hf2).2 hpr
      simpa using hmem
    rw [h1, h2]
    rfl

theorem C5_witness :
    Wf natLess sample2 [0, 1] ∧
    (eqOp natNe sample2 sample2 = some true ↔
      sizeOp sample2 = sizeOp sample2 ∧
      List.Forall₂ (fun x y => natNe x y = false) (toList sample2) (toList sample2)) :=
  ⟨by decide,
   C5_operator_eq natNe natLess natLess sample2 sample2 [0, 1] [0, 1]
     (by decide) (by decide)⟩

/-- C6 (corrected): after being moved from, the source reports empty and
size 0 and is safely destructible and clearable — but it is not reusable
for insertion: its head pointer is null, and insert dereferences the head
unconditionally, so insert on the moved-from source fails instead of
succeeding. -/
theorem C6_moved_from [Inhabited T] (cmp : T → T → Bool) (s : skip_list T)
    (v : T) (lvl : Nat) :
    emptyB (movedFrom s) = true ∧ sizeOp (movedFrom s) = 0 ∧
    destruct (movedFrom s) = movedFrom s ∧ clear (movedFrom s) = movedFrom s ∧
    insert cmp (movedFrom s) v lvl = none :=
  ⟨rfl, rfl, destruct_movedFrom s, clear_movedFrom s, rfl⟩

/-- C6 counterexample: insert on a moved-from skip_list does not succeed —
the model returns the null-head failure `none`, refuting the claimed
reusability for insertion. -/
theorem C6_counterexample :
    insert natLess (movedFrom (emptySL Nat)) 0 0 = none := rfl

/-- C7: dereferencing the end (or default-constructed) iterator fails, a
valid iterator dereferences successfully, and every other public operation
on a live skip_list is total: insert, erase, find, lower_bound, upper_bound,
count, contains and copy all return a result and never fail. -/
theorem C7_failures [Inhabited T] (cmp : T → T → Bool) (s : skip_list T)
    (c : List Nat) (hwf : Wf cmp s c) (v : T) (lvl : Nat) (lvls : List Nat)
    (i : Nat) :
    derefIter s endIt = (none : Option T) ∧
    derefIter s (some i) = some (val s i) ∧
    (insert cmp s v lvl).isSome = true ∧
    (erase cmp s v).isSome = true ∧
    (find cmp s v).isSome = true ∧
    (lower_bound cmp s v).isSome = true ∧
    (upper_bound cmp s v).isSome = true ∧
    (count cmp s v).isSome = true ∧
    (contains cmp s v).isSome = true ∧
    (copySL cmp s lvls).isSome = true :=
  ⟨rfl, rfl, insert_isSome cmp s v lvl hwf.1, erase_isSome cmp s v hwf.1,
   find_isSome cmp s v hwf.1, lower_bound_isSome cmp s v hwf.1,
   upper_bound_isSome cmp s v hwf.1, count_isSome cmp s v hwf.1,
   contains_isSome cmp s v hwf.1, copySL_isSome cmp s lvls hwf.1⟩

theorem C7_witness :
    Wf natLess sample2 [0, 1] ∧
    (derefIter sample2 endIt = (none : Option Nat) ∧
     derefIter sample2 (some 0) = some (val sample2 0) ∧
     (insert natLess sample2 5 0).isSome = true ∧
     (erase natLess sample2 5).isSome = true ∧
     (find natLess sample2 5).isSome = true ∧
     (lower_bound natLess sample2 5).isSome = true ∧
     (upper_bound natLess sample2 5).isSome = true ∧
     (count natLess sample2 5).isSome = true ∧
     (contains natLess sample2 5).isSome = true ∧
     (copySL natLess sample2 [0]).isSome = true) :=
  ⟨by decide, C7_failures natLess sample2 [0, 1] (by decide) 5 0 [0] 0⟩

/-- C8: the tracked top level satisfies the reachability invariant — all
levels above it hang nothing off the head and, when positive, its own level
does — before and after insert, erase and clear, and on the empty list. -/
theorem C8_level_invariant [Inhabited T] (cmp : T → T → Bool) (s : skip_list T)
    (c : List Nat) (hso : IsSWO cmp) (hwf : Wf cmp s c) (v : T) (lvl : Nat)
    (hlvl : lvl ≤ MAX_LEVEL) :
    levelOk s ∧
    (∀ s' it ins, insert cmp s v lvl = some (s', it, ins) → levelOk s') ∧
    (∀ s' n, erase cmp s v = some (s', n) → levelOk s') ∧
    levelOk (clear s) ∧ levelOk (emptySL T) := by
  refine ⟨Wf_levelOk cmp s c hwf, ?_, ?_, clear_levelOk s hwf.1,
    Wf_levelOk cmp (emptySL T) [] (emptySL_wf cmp)⟩
  · intro s' it ins hins
    obtain ⟨s₀, it₀, ins₀, c₀, heq, hwf₀, _⟩ := insert_step cmp s c hso hwf v lvl hlvl
    rw [heq] at hins
    injection Option.some.inj hins with h1 h2
    rw [← h1]
    exact Wf_levelOk cmp s₀ c₀ hwf₀
  · intro s' n hers
    by_cases hex : ∃ w ∈ c, cmp (val s w) v = false ∧ cmp v (val s w) = false
    · obtain ⟨w, hw, hequiv⟩ := hex
      obtain ⟨s₃, her, hwf₃, _, _, _⟩ := erase_present cmp s c hso hwf v w hw hequiv
      rw [her] at hers
      injection Option.some.inj hers with h1 h2
      rw [← h1]
      exact Wf_levelOk cmp s₃ _ hwf₃
    · have habs : ∀ w ∈ c, ¬(cmp (val s w) v = false ∧ cmp v (val s w) = false) :=
        fun w hw h => hex ⟨w, hw, h⟩
      rw [erase_absent cmp s c hso hwf v habs] at hers
      injection Option.some.inj hers with h1 h2
      rw [← h1]
      exact Wf_levelOk cmp s c hwf

theorem C8_witness :
    IsSWO natLess ∧ Wf natLess sample2 [0, 1] ∧ 2 ≤ MAX_LEVEL ∧
    (levelOk sample2 ∧
     (∀ s' it ins, insert natLess sample2 9 2 = some (s', it, ins) → levelOk s') ∧
     (∀ s' n, erase natLess sample2 9 = some (s', n) → levelOk s') ∧
     levelOk (clear sample2) ∧ levelOk (emptySL Nat)) :=
  ⟨isSWO_natLess, by decide, by decide,
   C8_level_invariant natLess sample2 [0, 1] isSWO_natLess (by decide) 9 2 (by decide)⟩

/-- C9: copying (element-by-element reinsertion of the source's in-order
sequence into a fresh structure) succeeds, produces a well-formed copy with
the same traversal and size that compares equal to the original, and the
copy's contents and size are unaffected by subsequently mutating the
original. -/
theorem C9_copy_semantics [Inhabited T] (cmp bne : T → T → Bool) (s : skip_list T)
    (c : List Nat) (hso : IsSWO cmp) (hwf : Wf cmp s c) (lvls : List Nat)
    (hlen : (toList s).length ≤ lvls.length) (hlv : ∀ l ∈ lvls, l ≤ MAX_LEVEL)
    (hbne : ∀ x, bne x x = false) (v : T) :
    ∃ cpy c', copySL cmp s lvls = some cpy ∧ Wf cmp cpy c' ∧
      toList cpy = toList s ∧ sizeOp cpy = sizeOp s ∧
      eqOp bne cpy s = some true ∧
      (∀ s' n, erase cmp s v = some (s', n) →
        toList cpy = toList s ∧ sizeOp cpy = sizeOp s) := by
  have hcopy : copySL cmp s lvls =
      some (insertAll cmp (emptySL T) ((toList s).zip lvls)) := by
    unfold copySL
    rw [if_pos hwf.1]
  obtain ⟨c', hwfc, htl⟩ := insertAll_spec cmp hso ((toList s).zip lvls) (emptySL T) []
    (emptySL_wf cmp) (fun p hp => hlv p.2 (List.of_mem_zip hp).2)
  have htls : toList (insertAll cmp (emptySL T) ((toList s).zip lvls)) = toList s := by
    rw [htl]
    have hzipmap : ((toList s).zip lvls).foldl (fun acc p => insertSortedSpec cmp p.1 acc)
        (toList (emptySL T)) =
        (((toList s).zip lvls).map Prod.fst).foldl
          (fun acc x => insertSortedSpec cmp x acc) [] := by
      rw [List.foldl_map]
      rfl
    rw [hzipmap, List.map_fst_zip _ _ hlen]
    have hpwv : List.Pairwise (fun a b => cmp a b = true) (toList s) := by
      rw [toList_eq cmp s c hwf]
      exact List.pairwise_map.2 hwf.2.2.2.2.2.2.2.1
    have := foldl_insertSortedSpec_sorted cmp (toList s) [] (by simpa using hpwv)
    simpa using this
  have hsizes : sizeOp (insertAll cmp (emptySL T) ((toList s).zip lvls)) = sizeOp s := by
    show (insertAll cmp (emptySL T) ((toList s).zip lvls)).size_ = s.size_
    have h1 : (insertAll cmp (emptySL T) ((toList s).zip lvls)).size_ = c'.length :=
      hwfc.2.2.2.1
    have h2 : (toList (insertAll cmp (emptySL T) ((toList s).zip lvls))).length =
        c'.length := by
      rw [toList_eq cmp _ c' hwfc, List.length_map]
    have h3 : (toList s).length = c.length := by
      rw [toList_eq cmp s c hwf, List.length_map]
    have h4 : s.size_ = c.length := hwf.2.2.2.1
    have h5 : (toList (insertAll cmp (emptySL T) ((toList s).zip lvls))).length =
        (toList s).length := by rw [htls]
    rw [h1, ← h2, h5, h3, ← h4]
  refine ⟨insertAll cmp (emptySL T) ((toList s).zip lvls), c', hcopy, hwfc, htls,
    hsizes, ?_, fun s' n _ => ⟨htls, hsizes⟩⟩
  rw [eqOp_spec bne cmp cmp _ s c' c hwfc hwf]
  have hd : decide (sizeOp (insertAll cmp (emptySL T) ((toList s).zip lvls)) =
      sizeOp s) = true := decide_eq_true hsizes
  rw [hd, htls]
  rw [all_zip_self bne hbne (toList s)]
  rfl

theorem C9_witness :
    IsSWO natLess ∧ Wf natLess sample2 [0, 1] ∧
    (toList sample2).length ≤ ([0, 0] : List Nat).length ∧
    (∀ l ∈ ([0, 0] : List Nat), l ≤ MAX_LEVEL) ∧
    (∀ x : Nat, natNe x x = false) ∧
    (∃ cpy c', copySL natLess sample2 [0, 0] = some cpy ∧ Wf natLess cpy c' ∧
      toList cpy = toList sample2 ∧ sizeOp cpy = sizeOp sample2 ∧
      eqOp natNe cpy sample2 = some true ∧
      (∀ s' n, erase natLess sample2 5 = some (s', n) →
        toList cpy = toList sample2 ∧ sizeOp cpy = sizeOp sample2)) :=
  ⟨isSWO_natLess, by decide, by decide, by decide, fun x => by simp [natNe],
   C9_copy_semantics natLess natNe sample2 [0, 1] isSWO_natLess (by decide) [0, 0]
     (by decide) (by decide) (fun x => by simp [natNe]) 5⟩

/-- C10: incrementing the end (or default-constructed) iterator is a silent
no-op — the iterator stays equal to end and no error is signaled — whereas
dereferencing it fails. -/
theorem C10_increment_end [Inhabited T] (s : skip_list T) :
    incIter s endIt = endIt ∧ derefIter s endIt = (none : Option T) :=
  ⟨rfl, rfl⟩
